import Mathlib

/-!
Verification of the geometric table-reconstruction engine of the `deyes`
repository against its natural-language specification.

The engine is embedded shallowly:

* `TextItem` mirrors the `TextItem` interface of `src/types/table.ts`;
  coordinates are modelled as exact rationals (the source stores JavaScript
  numbers rounded to two decimals).
* JavaScript's stable `Array.prototype.sort` with a numeric-key comparator is
  modelled by a stable insertion sort (`sortBy`): since ES2019 `sort` is
  required to be stable, and a stable ascending sort of a list is unique,
  the two agree.
* The functions `groupIntoRows`, `findTypicalColumnCount`,
  `detectColumnBoundaries`, `mapRowToColumns`, `splitIntoTables`,
  `findHeaderRowIndex`, `rowsToTable` and `detectTables` are translated from
  the final table-detector iteration of `src/lib/pdf/extract.ts`
  (the segment using `Y_TOLERANCE = 2`, `MIN_COLUMNS = 2`), and
  `findCellValue` from the calibration module.
-/

/-- A positioned text fragment, as produced by the external PDF extractor
(`TextItem` in `src/types/table.ts`). -/
structure TextItem where
  str : String
  x : ℚ
  y : ℚ
  width : ℚ
  height : ℚ
deriving DecidableEq, Repr

/-- A table row record: `{id, label, values}` (`TableRow` in
`src/types/table.ts`).  The JavaScript object `values` is modelled as an
association list in key-insertion order. -/
structure TableRow where
  id : String
  label : String
  values : List (String × String)
deriving DecidableEq, Repr

/-- A reconstructed table (`ParsedTable` in `src/types/table.ts`). -/
structure ParsedTable where
  id : String
  name : Option String
  headers : List String
  rows : List TableRow
deriving DecidableEq, Repr

/-- Tolerance for grouping items into rows (pixels). -/
def Y_TOLERANCE : ℚ := 2

/-- Tolerance for detecting column boundaries (pixels). -/
def X_TOLERANCE : ℚ := 8

/-- Minimum vertical gap between tables (pixels). -/
def TABLE_GAP_THRESHOLD : ℚ := 25

/-- Minimum number of rows for a segment to count as a table. -/
def MIN_TABLE_ROWS : Nat := 2

/-- Minimum number of columns for a valid table. -/
def MIN_COLUMNS : Nat := 2

/-! ### Stable sorting

JavaScript's `Array.prototype.sort` with comparator `(a, b) => key a - key b`
is a stable ascending sort.  We model it by insertion sort where each element
is inserted after all earlier elements whose key is `≤` its own, which is the
unique stable ascending ordering. -/

/-- Insert `it` into `l`, after every element `b` with `le b it`. -/
def insertLe (le : α → α → Bool) (it : α) : List α → List α
  | [] => [it]
  | b :: t => if le b it then b :: insertLe le it t else it :: b :: t

/-- Stable ascending insertion sort by the boolean comparison `le`. -/
def sortBy (le : α → α → Bool) (l : List α) : List α :=
  l.foldl (fun acc it => insertLe le it acc) []

theorem mem_insertLe (le : α → α → Bool) (it : α) :
    ∀ l (a : α), a ∈ insertLe le it l ↔ a = it ∨ a ∈ l := by
  intro l a
  induction l with
  | nil => simp [insertLe]
  | cons b t ih =>
      by_cases h : le b it = true
      · simp only [insertLe, h, if_true, List.mem_cons, ih]
        tauto
      · simp only [insertLe, h, if_false, Bool.false_eq_true, List.mem_cons]

theorem perm_insertLe (le : α → α → Bool) (it : α) :
    ∀ l, (insertLe le it l).Perm (it :: l) := by
  intro l
  induction l with
  | nil => simp [insertLe]
  | cons b t ih =>
      by_cases h : le b it = true
      · simp only [insertLe, h, if_pos]
        exact (ih.cons b).trans (List.Perm.swap it b t)
      · simp [insertLe, h]

theorem perm_sortBy_aux (le : α → α → Bool) :
    ∀ (l acc : List α), (l.foldl (fun acc it => insertLe le it acc) acc).Perm (acc ++ l) := by
  intro l
  induction l with
  | nil => intro acc; simp
  | cons a t ih =>
      intro acc
      have h1 := ih (insertLe le a acc)
      have h2 : (insertLe le a acc ++ t).Perm (acc ++ a :: t) := by
        have := (perm_insertLe le a acc).append_right t
        exact this.trans List.perm_middle.symm
      exact (List.foldl_cons _ _ ▸ h1).trans h2

theorem perm_sortBy (le : α → α → Bool) (l : List α) : (sortBy le l).Perm l := by
  have := perm_sortBy_aux le l []
  simpa [sortBy] using this

theorem pairwise_insertLe (le : α → α → Bool)
    (htot : ∀ a b, le a b = true ∨ le b a = true)
    (htrans : ∀ a b c, le a b = true → le b c = true → le a c = true)
    (it : α) :
    ∀ l, l.Pairwise (fun a b => le a b = true) →
      (insertLe le it l).Pairwise (fun a b => le a b = true) := by
  intro l
  induction l with
  | nil => simp [insertLe]
  | cons b t ih =>
      intro hp
      rcases List.pairwise_cons.mp hp with ⟨hb, ht⟩
      by_cases h : le b it = true
      · simp only [insertLe, h, if_pos]
        refine List.pairwise_cons.mpr ⟨?_, ih ht⟩
        intro a ha
        rcases (mem_insertLe le it t a).mp ha with rfl | ha
        · exact h
        · exact hb a ha
      · simp only [insertLe, h, if_neg, Bool.not_eq_true]
        refine List.pairwise_cons.mpr ⟨?_, hp⟩
        intro a ha
        have hit : le it b = true := by
          rcases htot b it with hh | hh
          · exact absurd hh h
          · exact hh
        rcases List.mem_cons.mp ha with rfl | ha
        · exact hit
        · exact htrans it b a hit (hb a ha)

theorem pairwise_sortBy (le : α → α → Bool)
    (htot : ∀ a b, le a b = true ∨ le b a = true)
    (htrans : ∀ a b c, le a b = true → le b c = true → le a c = true)
    (l : List α) :
    (sortBy le l).Pairwise (fun a b => le a b = true) := by
  suffices h : ∀ (l acc : List α), acc.Pairwise (fun a b => le a b = true) →
      (l.foldl (fun acc it => insertLe le it acc) acc).Pairwise (fun a b => le a b = true) by
    exact h l [] (by simp)
  intro l
  induction l with
  | nil => intro acc h; simpa using h
  | cons a t ih =>
      intro acc hacc
      simpa using ih (insertLe le a acc) (pairwise_insertLe le htot htrans a acc hacc)

theorem length_sortBy (le : α → α → Bool) (l : List α) :
    (sortBy le l).length = l.length :=
  (perm_sortBy le l).length_eq

theorem mem_sortBy (le : α → α → Bool) (l : List α) (a : α) :
    a ∈ sortBy le l ↔ a ∈ l :=
  (perm_sortBy le l).mem_iff

/-! ### Row grouper

`groupIntoRows` from the final table-detector iteration: sort by Y, then walk
the sorted list, a fragment joining the current row when its Y is within
`Y_TOLERANCE` of the current row's average Y; each closed row is sorted by X. -/

/-- Comparator for the initial Y sort (`(a, b) => a.y - b.y`). -/
def leY (a b : TextItem) : Bool := decide (a.y ≤ b.y)

/-- Comparator for the per-row X sort (`(a, b) => a.x - b.x`). -/
def leX (a b : TextItem) : Bool := decide (a.x ≤ b.x)

/-- Per-row stable X sort, `currentRow.sort((a, b) => a.x - b.x)`. -/
def sortByX (l : List TextItem) : List TextItem := sortBy leX l

/-- Average Y of a row (`getRowAvgY` in the source). -/
def avgY (row : List TextItem) : ℚ :=
  (row.foldl (fun s it => s + it.y) 0) / (row.length : ℚ)

/-- The grouping walk of `groupIntoRows`: `current` is the accumulator row,
the second argument the remaining Y-sorted items. -/
def groupAux (current : List TextItem) : List TextItem → List (List TextItem)
  | [] => if current.isEmpty then [] else [sortByX current]
  | it :: rest =>
      if decide (|it.y - avgY current| ≤ Y_TOLERANCE) then
        groupAux (current ++ [it]) rest
      else if current.isEmpty then groupAux [it] rest
      else sortByX current :: groupAux [it] rest

/-- Groups text items into rows based on Y position
(`groupIntoRows`, average-Y variant). -/
def groupIntoRows (items : List TextItem) : List (List TextItem) :=
  match sortBy leY items with
  | [] => []
  | first :: rest => groupAux [first] rest

/-! ### Column-count statistics

`findTypicalColumnCount` builds a JavaScript object keyed by row length and
then iterates `Object.entries`.  JavaScript enumerates integer-like keys in
ascending numeric order, which we model by filtering `List.range` by
membership in the multiset of row lengths. -/

/-- The distinct row lengths present in `lens`, in ascending order — the
enumeration order of the integer keys of the `counts` object. -/
def ascendingKeys (lens : List Nat) : List Nat :=
  (List.range (lens.foldl max 0 + 1)).filter (fun n => lens.contains n)

/-- The selection loop of `findTypicalColumnCount`: the accumulator is
`(maxCount, typicalCols)`; a key replaces it only when its count is strictly
greater. -/
def typicalFold (lens : List Nat) (keys : List Nat) : Nat × Nat :=
  keys.foldl
    (fun acc c => if MIN_COLUMNS ≤ c ∧ acc.1 < lens.count c then (lens.count c, c) else acc)
    (0, 0)

/-- Find the most common column count that is at least `MIN_COLUMNS`
(`findTypicalColumnCount`). -/
def findTypicalColumnCount (rows : List (List α)) : Nat :=
  let lens := rows.map List.length
  (typicalFold lens (ascendingKeys lens)).2

/-! ### Column boundaries -/

/-- Comparator for sorting plain rationals ascending. -/
def leQ (a b : ℚ) : Bool := decide (a ≤ b)

/-- JavaScript `Math.round`: round half toward positive infinity. -/
def jsRound (q : ℚ) : ℤ := ⌊q + 1 / 2⌋

/-- Median X of one column position: sort the collected X values ascending and
take the element at `⌊length / 2⌋`. -/
def medianX (xs : List ℚ) : ℚ :=
  (sortBy leQ xs).getD (xs.length / 2) 0

/-- Gap-clustering fallback of `detectColumnBoundariesFallback`: walk the
ascending distinct rounded positions, merging neighbours at distance
`≤ X_TOLERANCE * 2`; each cluster contributes the rounded mean of its members. -/
def fallbackClusters : List ℚ → List ℚ → List ℚ
  | clusterPositions, [] =>
      if clusterPositions.isEmpty then []
      else [(jsRound (clusterPositions.foldl (· + ·) 0 / (clusterPositions.length : ℚ)) : ℚ)]
  | clusterPositions, p :: rest =>
      match clusterPositions.getLast? with
      | none => fallbackClusters [p] rest
      | some prev =>
          if decide (p - prev ≤ X_TOLERANCE * 2) then
            fallbackClusters (clusterPositions ++ [p]) rest
          else
            (jsRound (clusterPositions.foldl (· + ·) 0 / (clusterPositions.length : ℚ)) : ℚ) ::
              fallbackClusters [p] rest

/-- Fallback column detection by gap analysis
(`detectColumnBoundariesFallback`).  X positions are rounded to the nearest
multiple of 5; the `Map` keys are deduplicated and then sorted ascending. -/
def detectColumnBoundariesFallback (rows : List (List TextItem)) : List ℚ :=
  let rounded := (rows.flatten.map (fun it => ((jsRound (it.x / 5) * 5 : ℤ) : ℚ)))
  let positions := sortBy leQ (rounded.eraseDups)
  match positions with
  | [] => []
  | p :: rest => fallbackClusters [p] rest

/-- Detects column boundaries from rows with the typical item count
(`detectColumnBoundaries`): the median X of each column position across the
consistent rows, or the fallback clustering when no row is consistent. -/
def detectColumnBoundaries (rows : List (List TextItem)) (typicalCols : Nat) : List ℚ :=
  let consistentRows := rows.filter (fun row => row.length == typicalCols)
  if consistentRows.isEmpty then detectColumnBoundariesFallback rows
  else
    (List.range typicalCols).map (fun i =>
      medianX (consistentRows.map (fun row => (row.getD i ⟨"", 0, 0, 0, 0⟩).x)))

/-! ### Cell mapper -/

/-- The inner argmin scan of `mapRowToColumns`: finds the first index whose
boundary is at strictly smaller distance than the best so far. -/
def closestColGo (x : ℚ) : List ℚ → Nat → Nat → ℚ → Nat
  | [], _, bestIdx, _ => bestIdx
  | b :: rest, i, bestIdx, bestDist =>
      if decide (|x - b| < bestDist) then closestColGo x rest (i + 1) i |x - b|
      else closestColGo x rest (i + 1) bestIdx bestDist

/-- Index of the column boundary closest to `x` (first one on ties). -/
def closestColumn (x : ℚ) (bs : List ℚ) : Nat :=
  match bs with
  | [] => 0
  | b :: rest => closestColGo x rest 1 0 |x - b|

/-- Cell concatenation of `mapRowToColumns`: append with a single space to a
non-empty cell, else start the cell. -/
def cellAppend (old s : String) : String :=
  if old = "" then s else old ++ " " ++ s

/-- Maps a row's items to columns (`mapRowToColumns`): each fragment is
assigned to its closest boundary; fragments on one boundary are concatenated
in row order. -/
def mapRowToColumns (row : List TextItem) (bs : List ℚ) : List String :=
  row.foldl
    (fun result it =>
      let j := closestColumn it.x bs
      result.set j (cellAppend (result.getD j "") it.str))
    (List.replicate bs.length "")

/-! ### Table segmenter -/

/-- Minimum Y of a row, `Math.min(...row.map(item => item.y))` (0 on the
empty row, which never occurs in the pipeline). -/
def minY (row : List TextItem) : ℚ :=
  match row with
  | [] => 0
  | it :: rest => rest.foldl (fun m i2 => min m i2.y) it.y

/-- The walk of `splitIntoTables`: close the current segment (keeping it only
when it has at least `MIN_TABLE_ROWS` rows) whenever the min-Y gap to the
previous row strictly exceeds `TABLE_GAP_THRESHOLD`. -/
def splitAux (current : List (List TextItem)) (prev : List TextItem) :
    List (List TextItem) → List (List (List TextItem))
  | [] => if MIN_TABLE_ROWS ≤ current.length then [current] else []
  | r :: rest =>
      if decide (TABLE_GAP_THRESHOLD < minY r - minY prev) then
        (if MIN_TABLE_ROWS ≤ current.length then [current] else []) ++ splitAux [r] r rest
      else splitAux (current ++ [r]) r rest

/-- Splits rows into separate tables based on Y gaps (`splitIntoTables`). -/
def splitIntoTables (rows : List (List TextItem)) : List (List (List TextItem)) :=
  match rows with
  | [] => []
  | r :: rest => splitAux [r] r rest

/-! ### The numeric-string test

The header/row classifier decides whether a cell is numeric with
`isNaN(Number(cleaned))` after `cleaned = cell.replace(/[,\s%$]/g, "")`.
`Number(string)` accepts the empty string (value 0), optionally signed
decimal literals with an optional exponent, `Infinity`, and unsigned binary,
octal and hexadecimal literals.  The inputs are already free of whitespace
(stripped by the replace), so no surrounding-whitespace trimming is needed. -/

/-- JavaScript `String.prototype.trim`: drop whitespace from both ends.
Defined over the character list so that it reduces inside the kernel. -/
def jsTrim (s : String) : String :=
  String.mk (((s.toList.dropWhile Char.isWhitespace).reverse.dropWhile
    Char.isWhitespace).reverse)

/-- Characters removed by `replace(/[,\s%$]/g, "")` (ASCII whitespace forms). -/
def strippedChar (c : Char) : Bool :=
  c = ',' || c = '%' || c = '$' ||
    c = ' ' || c = '\t' || c = '\n' || c = '\r' || c = '\x0b' || c = '\x0c'

/-- Strips currency symbols, commas, percent signs, and whitespace. -/
def cleanCell (s : String) : String :=
  String.mk (s.toList.filter (fun c => !strippedChar c))

/-- A non-empty all-digit character run. -/
def isDigits (cs : List Char) : Bool :=
  !cs.isEmpty && cs.all Char.isDigit

/-- Tail case analysis for the mantissa: `ip` is the integer-part digit run,
`rest` what follows it. -/
def mantTail (ip rest : List Char) : Bool :=
  match rest with
  | [] => !ip.isEmpty
  | c :: fr => c = '.' && (if ip.isEmpty then isDigits fr else fr.all Char.isDigit)

/-- Mantissa of a JavaScript decimal literal:
`Digits ['.' Digits?] | '.' Digits`. -/
def mantOK (cs : List Char) : Bool :=
  mantTail (cs.takeWhile Char.isDigit) (cs.dropWhile Char.isDigit)

/-- Optionally signed digit run (a JavaScript exponent body). -/
def signedDigits (cs : List Char) : Bool :=
  match cs with
  | c :: r => if c = '+' || c = '-' then isDigits r else isDigits (c :: r)
  | [] => false

/-- A character that does not begin an exponent part. -/
def notExp (c : Char) : Bool := !(c = 'e' || c = 'E')

/-- Tail case analysis for the exponent split: `m` is the mantissa part,
`rest` the exponent marker and body. -/
def decExpSplit (m rest : List Char) : Bool :=
  match rest with
  | [] => mantOK m
  | _ :: ex => mantOK m && signedDigits ex

/-- JavaScript decimal literal with optional exponent part. -/
def decExpOK (cs : List Char) : Bool :=
  decExpSplit (cs.takeWhile notExp) (cs.dropWhile notExp)

/-- Hexadecimal digit. -/
def hexDigit (c : Char) : Bool :=
  c.isDigit || ('a' ≤ c && c ≤ 'f') || ('A' ≤ c && c ≤ 'F')

/-- Unsigned non-decimal integer literal (`0x...`, `0o...`, `0b...`). -/
def nonDecOK (cs : List Char) : Bool :=
  match cs with
  | c0 :: c1 :: r =>
      c0 = '0' && !r.isEmpty &&
        ((c1 = 'x' || c1 = 'X') && r.all hexDigit ||
         (c1 = 'o' || c1 = 'O') && r.all (fun d => '0' ≤ d && d ≤ '7') ||
         (c1 = 'b' || c1 = 'B') && r.all (fun d => d = '0' || d = '1'))
  | _ => false

/-- The characters of the `Infinity` literal. -/
def infChars : List Char := ['I', 'n', 'f', 'i', 'n', 'i', 't', 'y']

/-- Whether `Number(s)` yields a non-NaN value, for an `s` containing no
whitespace: models `!isNaN(Number(s))`. -/
def jsIsNumeric (s : String) : Bool :=
  match s.toList with
  | [] => true
  | c :: r =>
      if c = '+' || c = '-' then r == infChars || decExpOK r
      else (c :: r) == infChars || nonDecOK (c :: r) || decExpOK (c :: r)

/-- Tail case analysis for the regular expression `/^\d+\.?\d*$/`. -/
def regexTail (ip rest : List Char) : Bool :=
  !ip.isEmpty &&
    (match rest with
     | [] => true
     | c :: fr => c = '.' && fr.all Char.isDigit)

/-- The regular expression `/^\d+\.?\d*$/` used alongside the `isNaN` test. -/
def regexDecTest (s : String) : Bool :=
  regexTail (s.toList.takeWhile Char.isDigit) (s.toList.dropWhile Char.isDigit)

/-! ### Header-row classifier (`findHeaderRowIndex`) -/

/-- The per-row count of the classifier: `(textCells, totalCells)` over the
non-label cells (`j ≥ 1`); a cell counts as text when both the `isNaN` test
and the negated regex test hold for its stripped form. -/
def hdrCounts (cells : List String) : Nat × Nat :=
  cells.foldl
    (fun acc c =>
      let cell := jsTrim c
      if cell ≠ "" then
        (if !jsIsNumeric (cleanCell cell) && !regexDecTest (cleanCell cell) then acc.1 + 1
         else acc.1,
         acc.2 + 1)
      else acc)
    (0, 0)

/-- A mapped row is header-like when more than half of its non-empty
non-label cells are text (`textCells / totalCells > 0.5`). -/
def isHeaderRowCode (row : List String) : Bool :=
  let tc := hdrCounts (row.drop 1)
  decide (0 < tc.2 ∧ (1 : ℚ) / 2 < (tc.1 : ℚ) / (tc.2 : ℚ))

/-- The scanning loop of `findHeaderRowIndex`: return the running index of
the first header-like row, 0 when the scan runs out. -/
def fhriGo (i : Nat) : List (List String) → Nat
  | [] => 0
  | row :: rest => if isHeaderRowCode row then i else fhriGo (i + 1) rest

/-- Finds the best header row index among the first five mapped rows
(`findHeaderRowIndex`). -/
def findHeaderRowIndex (mapped : List (List String)) : Nat :=
  fhriGo 0 (mapped.take 5)

/-! ### Row records (`rowsToTable` data-row loop) -/

/-- JavaScript object assignment `values[k] = v`: overwrite the value in
place when `k` is present, else append the binding. -/
def insertJS (l : List (String × String)) (k v : String) : List (String × String) :=
  if l.any (fun p => p.1 == k) then l.map (fun p => if p.1 == k then (k, v) else p)
  else l ++ [(k, v)]

/-- The values loop of `rowsToTable`: for each `j` in the given index list,
bind `headers[j]?.trim() || Column j` to the trimmed cell unless the header
collides with the placeholder. -/
def buildValuesGo (headers rowData : List String) :
    List Nat → List (String × String) → List (String × String)
  | [], acc => acc
  | j :: js, acc =>
      let h0 := jsTrim (headers.getD j "")
      let header := if h0 = "" then "Column " ++ toString j else h0
      if header ≠ "Column " ++ toString j then
        buildValuesGo headers rowData js (insertJS acc header (jsTrim (rowData.getD j "")))
      else buildValuesGo headers rowData js acc

/-- The `values` record of one data row: the loop runs for
`1 ≤ j < min headers.length rowData.length`. -/
def buildValues (headers rowData : List String) : List (String × String) :=
  buildValuesGo headers rowData ((List.range (min headers.length rowData.length)).drop 1) []

/-- The numeric-cell test of the sub-header skip: the stripped cell must be
non-empty and pass the `isNaN` test. -/
def numericDataCell (c : String) : Bool :=
  let cleaned := cleanCell (jsTrim c)
  cleaned ≠ "" && jsIsNumeric cleaned

/-- The sub-header skip of `rowsToTable`: the first data cell (`rowData[1]`)
is non-empty and non-numeric, and the number of numeric non-label cells is
below one third of the full row length. -/
def subHeaderSkip (rowData : List String) : Bool :=
  let firstDataCell := jsTrim (rowData.getD 1 "")
  firstDataCell ≠ "" && !jsIsNumeric (cleanCell firstDataCell) &&
    decide ((((rowData.drop 1).countP numericDataCell : ℚ)) < (rowData.length : ℚ) / 3)

/-- The data-row loop of `rowsToTable`: skip short labels, skip sub-header
rows, and emit a record only when its `values` is non-empty. -/
def dataRowsGo (headers : List String) (tableIndex : Nat) :
    Nat → List (List String) → List TableRow
  | _, [] => []
  | i, rowData :: rest =>
      let label := jsTrim (rowData.getD 0 "")
      if label = "" ∨ label.length < 2 then dataRowsGo headers tableIndex (i + 1) rest
      else if subHeaderSkip rowData then dataRowsGo headers tableIndex (i + 1) rest
      else
        let values := buildValues headers rowData
        if values.isEmpty then dataRowsGo headers tableIndex (i + 1) rest
        else
          { id := "table-" ++ toString tableIndex ++ "-row-" ++ toString i,
            label := label, values := values } :: dataRowsGo headers tableIndex (i + 1) rest

/-- The mapped rows computed inside `rowsToTable`: every row mapped to the
detected column boundaries. -/
def mappedRowsOf (rows : List (List TextItem)) : List (List String) :=
  rows.map (fun row =>
    mapRowToColumns row (detectColumnBoundaries rows (findTypicalColumnCount rows)))

/-- The mapped header row selected inside `rowsToTable`. -/
def headerRowOf (rows : List (List TextItem)) : List String :=
  (mappedRowsOf rows).getD (findHeaderRowIndex (mappedRowsOf rows)) []

/-- Converts rows to structured table data (`rowsToTable`).  The source's
`typicalCols`, `columnBoundaries`, `mappedRows`, `headerRowIndex` and
`headers` let-bindings appear here as `findTypicalColumnCount rows`,
`detectColumnBoundaries rows _`, `mappedRowsOf rows`,
`findHeaderRowIndex (mappedRowsOf rows)` and `headerRowOf rows`. -/
def rowsToTable (rows : List (List TextItem)) (tableIndex : Nat) : Option ParsedTable :=
  if rows.length < MIN_TABLE_ROWS then none
  else if findTypicalColumnCount rows < MIN_COLUMNS then none
  else if (detectColumnBoundaries rows (findTypicalColumnCount rows)).length <
      MIN_COLUMNS then none
  else
    let tableRows := dataRowsGo (headerRowOf rows) tableIndex
      (findHeaderRowIndex (mappedRowsOf rows) + 1)
      ((mappedRowsOf rows).drop (findHeaderRowIndex (mappedRowsOf rows) + 1))
    if tableRows.isEmpty then none
    else
      some
        { id := "table-" ++ toString tableIndex,
          name := none,
          headers := (((headerRowOf rows).drop 1).map jsTrim).filter (fun h => h ≠ ""),
          rows := tableRows }

/-- Detects tables from extracted text items (`detectTables`). -/
def detectTables (items : List TextItem) : List ParsedTable :=
  let rows := groupIntoRows items
  if rows.length < MIN_TABLE_ROWS then []
  else
    (splitIntoTables rows).enum.filterMap (fun p =>
      match rowsToTable p.2 p.1 with
      | some t => if 0 < t.rows.length then some t else none
      | none => none)

/-! ### Keyword direct-lookup cell search (`findCellValue`, calibration
module) -/

/-- Candidate test of `findCellValue`: within the X tolerance of the header,
within the Y tolerance of the row, and non-empty trimmed text. -/
def qualifiesCell (headerItem rowItem : TextItem) (xTolerance yTolerance : ℚ)
    (it : TextItem) : Bool :=
  decide (|it.x - headerItem.x| < xTolerance) &&
    decide (|it.y - rowItem.y| < yTolerance) &&
    decide (0 < (jsTrim it.str).length)

/-- Manhattan distance to the header/row intersection. -/
def manhattan (headerItem rowItem it : TextItem) : ℚ :=
  |it.x - headerItem.x| + |it.y - rowItem.y|

/-- Find the cell value at the intersection of a header column and a row
(`findCellValue`): `null` when no candidate qualifies, else the trimmed text
of the candidate closest in Manhattan distance. -/
def findCellValue (items : List TextItem) (headerItem rowItem : TextItem)
    (xTolerance yTolerance : ℚ) : Option String :=
  let candidates := items.filter (qualifiesCell headerItem rowItem xTolerance yTolerance)
  match candidates with
  | [] => none
  | c :: cs =>
      some (((sortBy
        (fun a b => decide (manhattan headerItem rowItem a ≤ manhattan headerItem rowItem b))
        (c :: cs)).headD c).str |> jsTrim)

/-! ### Properties of the row grouper -/

theorem groupAux_mem_sorted :
    ∀ (rest current : List TextItem) (r : List TextItem),
      r ∈ groupAux current rest → ∃ c, r = sortByX c := by
  intro rest
  induction rest with
  | nil =>
      intro current r hr
      by_cases h : current.isEmpty
      · simp [groupAux, h] at hr
      · simp only [groupAux, h, if_false, Bool.false_eq_true, List.mem_singleton] at hr
        exact ⟨current, hr⟩
  | cons it rest ih =>
      intro current r hr
      by_cases h1 : decide (|it.y - avgY current| ≤ Y_TOLERANCE) = true
      · rw [groupAux, if_pos h1] at hr
        exact ih _ r hr
      · rw [groupAux, if_neg h1] at hr
        by_cases h2 : current.isEmpty
        · rw [if_pos h2] at hr
          exact ih _ r hr
        · rw [if_neg h2] at hr
          rcases List.mem_cons.mp hr with rfl | hr
          · exact ⟨current, rfl⟩
          · exact ih _ r hr

theorem pairwise_sortByX (l : List TextItem) :
    (sortByX l).Pairwise (fun a b => a.x ≤ b.x) := by
  have h := pairwise_sortBy leX
    (by intro a b; rcases le_total a.x b.x with h | h <;> simp [leX, h])
    (by intro a b c hab hbc
        simp only [leX, decide_eq_true_eq] at hab hbc ⊢
        exact le_trans hab hbc) l
  refine h.imp ?_
  intro a b hab
  simpa [leX] using hab

theorem groupAux_perm :
    ∀ (rest current : List TextItem),
      (groupAux current rest).flatten.Perm (current ++ rest) := by
  intro rest
  induction rest with
  | nil =>
      intro current
      by_cases h : current.isEmpty
      · have : current = [] := List.isEmpty_iff.mp h
        simp [groupAux, h, this]
      · simp only [groupAux, h, if_false, Bool.false_eq_true, List.flatten,
          List.append_nil]
        simpa using (perm_sortBy leX current).symm.symm
  | cons it rest ih =>
      intro current
      by_cases h1 : decide (|it.y - avgY current| ≤ Y_TOLERANCE) = true
      · rw [groupAux, if_pos h1]
        have := ih (current ++ [it])
        simpa using this
      · rw [groupAux, if_neg h1]
        by_cases h2 : current.isEmpty
        · rw [if_pos h2]
          have hc : current = [] := List.isEmpty_iff.mp h2
          simpa [hc] using ih [it]
        · rw [if_neg h2]
          have := (perm_sortBy leX current).append (ih [it])
          simpa using this

/-- Claim C10.  The rows produced by the row grouper partition the input:
their concatenation is a permutation of the input fragment list, so every
input fragment lands in exactly one row, and none is dropped, duplicated, or
invented. -/
theorem groupIntoRows_partition (items : List TextItem) :
    (groupIntoRows items).flatten.Perm items := by
  unfold groupIntoRows
  cases h : sortBy leY items with
  | nil =>
      have := perm_sortBy leY items
      rw [h] at this
      simpa using this.symm.symm
  | cons first rest =>
      have h1 := groupAux_perm rest [first]
      have h2 := perm_sortBy leY items
      rw [h] at h2
      exact h1.trans h2

/-- Claim C9 (amended).  Every row produced by the row grouper is sorted by
X in non-decreasing order (the per-row sort is stable, so fragments with
equal X stay in Y-sort order and the ordering is not strict). -/
theorem groupIntoRows_rows_sortedX (items : List TextItem) (r : List TextItem)
    (hr : r ∈ groupIntoRows items) :
    r.Pairwise (fun a b => a.x ≤ b.x) := by
  unfold groupIntoRows at hr
  cases h : sortBy leY items with
  | nil => rw [h] at hr; simp at hr
  | cons first rest =>
      rw [h] at hr
      obtain ⟨c, rfl⟩ := groupAux_mem_sorted rest [first] r hr
      exact pairwise_sortByX c

/-- Input for the claim C9 counterexample: two fragments sharing one exact
position. -/
def c9items : List TextItem := [⟨"a", 10, 0, 0, 0⟩, ⟨"b", 10, 0, 0, 0⟩]

unseal Rat.add Rat.sub Rat.mul Rat.inv in
/-- Claim C9 (counterexample).  On two fragments at the same position the
grouper produces the single row `[a, b]` whose X values are equal, so the
rows are not sorted strictly ascending by X as the claim states. -/
theorem groupIntoRows_strictX_counterexample :
    ¬ ∀ r ∈ groupIntoRows c9items, List.Pairwise (fun a b : TextItem => a.x < b.x) r := by
  decide

unseal Rat.add Rat.sub Rat.mul Rat.inv in
/-- Witness for `groupIntoRows_rows_sortedX` at the concrete input
`c9items`. -/
theorem groupIntoRows_rows_sortedX_witness :
    ((groupIntoRows c9items).getD 0 []).Pairwise (fun a b : TextItem => a.x ≤ b.x) :=
  groupIntoRows_rows_sortedX c9items ((groupIntoRows c9items).getD 0 []) (by decide)

/-! ### Properties of the table segmenter -/

/-- Segmentation as the claim states it: a new segment starts between
consecutive rows exactly when the min-Y gap strictly exceeds
`TABLE_GAP_THRESHOLD`; no segment is discarded. -/
def chunkAux (current : List (List TextItem)) (prev : List TextItem) :
    List (List TextItem) → List (List (List TextItem))
  | [] => [current]
  | r :: rest =>
      if decide (TABLE_GAP_THRESHOLD < minY r - minY prev) then
        current :: chunkAux [r] r rest
      else chunkAux (current ++ [r]) r rest

/-- All segments of the row list, split exactly at the large gaps. -/
def chunkRows (rows : List (List TextItem)) : List (List (List TextItem)) :=
  match rows with
  | [] => []
  | r :: rest => chunkAux [r] r rest

theorem splitAux_eq_filter_chunkAux :
    ∀ (l : List (List TextItem)) (current : List (List TextItem)) (prev : List TextItem),
      splitAux current prev l =
        (chunkAux current prev l).filter (fun s => decide (MIN_TABLE_ROWS ≤ s.length)) := by
  intro l
  induction l with
  | nil =>
      intro current prev
      by_cases h : MIN_TABLE_ROWS ≤ current.length <;>
        simp [splitAux, chunkAux, List.filter_cons, h]
  | cons r rest ih =>
      intro current prev
      by_cases hgap : decide (TABLE_GAP_THRESHOLD < minY r - minY prev) = true
      · rw [splitAux, if_pos hgap, chunkAux, if_pos hgap, List.filter_cons]
        by_cases h : MIN_TABLE_ROWS ≤ current.length <;> simp [h, ih]
      · rw [splitAux, if_neg hgap, chunkAux, if_neg hgap]
        exact ih _ _

theorem chunkAux_flatten :
    ∀ (l : List (List TextItem)) (current : List (List TextItem)) (prev : List TextItem),
      (chunkAux current prev l).flatten = current ++ l := by
  intro l
  induction l with
  | nil => intro current prev; simp [chunkAux]
  | cons r rest ih =>
      intro current prev
      by_cases hgap : decide (TABLE_GAP_THRESHOLD < minY r - minY prev) = true
      · rw [chunkAux, if_pos hgap]
        simp [ih]
      · rw [chunkAux, if_neg hgap]
        simp [ih]

theorem chunkAux_ne_nil :
    ∀ (l : List (List TextItem)) (current : List (List TextItem)) (prev : List TextItem),
      current ≠ [] → ∀ s ∈ chunkAux current prev l, s ≠ [] := by
  intro l
  induction l with
  | nil =>
      intro current prev hc s hs
      simp only [chunkAux, List.mem_singleton] at hs
      exact hs ▸ hc
  | cons r rest ih =>
      intro current prev hc s hs
      by_cases hgap : decide (TABLE_GAP_THRESHOLD < minY r - minY prev) = true
      · rw [chunkAux, if_pos hgap] at hs
        rcases List.mem_cons.mp hs with rfl | hs
        · exact hc
        · exact ih [r] r (by simp) s hs
      · rw [chunkAux, if_neg hgap] at hs
        exact ih _ r (by simp) s hs

theorem chunkAux_head :
    ∀ (l : List (List TextItem)) (current : List (List TextItem)) (prev : List TextItem),
      current ≠ [] →
      ∃ s t, chunkAux current prev l = s :: t ∧ s.head? = current.head? := by
  intro l
  induction l with
  | nil => intro current prev _; exact ⟨current, [], rfl, rfl⟩
  | cons r rest ih =>
      intro current prev hc
      by_cases hgap : decide (TABLE_GAP_THRESHOLD < minY r - minY prev) = true
      · rw [chunkAux, if_pos hgap]
        exact ⟨current, _, rfl, rfl⟩
      · rw [chunkAux, if_neg hgap]
        obtain ⟨s, t, heq, hhd⟩ := ih (current ++ [r]) r (by simp)
        refine ⟨s, t, heq, hhd.trans ?_⟩
        cases current with
        | nil => exact absurd rfl hc
        | cons a l2 => simp

theorem chunkAux_chain_inner :
    ∀ (l : List (List TextItem)) (current : List (List TextItem)) (prev : List TextItem),
      current.getLast? = some prev →
      List.Chain' (fun a b => minY b - minY a ≤ TABLE_GAP_THRESHOLD) current →
      ∀ s ∈ chunkAux current prev l,
        List.Chain' (fun a b => minY b - minY a ≤ TABLE_GAP_THRESHOLD) s := by
  intro l
  induction l with
  | nil =>
      intro current prev _ hch s hs
      simp only [chunkAux, List.mem_singleton] at hs
      exact hs ▸ hch
  | cons r rest ih =>
      intro current prev hlast hch s hs
      by_cases hgap : decide (TABLE_GAP_THRESHOLD < minY r - minY prev) = true
      · rw [chunkAux, if_pos hgap] at hs
        rcases List.mem_cons.mp hs with rfl | hs
        · exact hch
        · exact ih [r] r (by simp) (by simp) s hs
      · rw [chunkAux, if_neg hgap] at hs
        refine ih (current ++ [r]) r ?_ ?_ s hs
        · simp
        · rw [List.chain'_append]
          refine ⟨hch, by simp, ?_⟩
          intro x hx y hy
          rw [hlast] at hx
          simp only [Option.mem_some_iff] at hx
          simp only [List.head?_cons, Option.mem_some_iff] at hy
          subst hx; subst hy
          have := hgap
          rw [decide_eq_true_iff] at this
          exact le_of_not_lt this

theorem chunkAux_chain_gap :
    ∀ (l : List (List TextItem)) (current : List (List TextItem)) (prev : List TextItem),
      current.getLast? = some prev →
      List.Chain'
        (fun s t => ∀ a ∈ s.getLast?, ∀ b ∈ t.head?, TABLE_GAP_THRESHOLD < minY b - minY a)
        (chunkAux current prev l) := by
  intro l
  induction l with
  | nil => intro current prev _; simp [chunkAux]
  | cons r rest ih =>
      intro current prev hlast
      by_cases hgap : decide (TABLE_GAP_THRESHOLD < minY r - minY prev) = true
      · rw [chunkAux, if_pos hgap]
        rw [List.chain'_cons']
        constructor
        · intro s hs
          obtain ⟨s2, t2, heq, hhd⟩ := chunkAux_head rest [r] r (by simp)
          rw [heq] at hs
          simp only [List.head?_cons, Option.mem_some_iff] at hs
          subst hs
          intro a ha b hb
          rw [hlast] at ha
          simp only [Option.mem_some_iff] at ha
          rw [hhd] at hb
          simp only [List.head?_cons, Option.mem_some_iff] at hb
          subst ha; subst hb
          exact decide_eq_true_iff.mp hgap
        · exact ih [r] r (by simp)
      · rw [chunkAux, if_neg hgap]
        exact ih (current ++ [r]) r (by simp)

/-- Claim C4.  The table segmenter closes a segment between consecutive rows
exactly when the min-Y gap strictly exceeds `TABLE_GAP_THRESHOLD` (a gap
equal to the threshold does not split), and a closed segment is kept exactly
when it has at least `MIN_TABLE_ROWS` rows: `splitIntoTables` equals the
pure chunking `chunkRows` (which splits exactly at the strict-gap
boundaries, covers the whole input, keeps segments non-empty, has all
within-segment gaps `≤` the threshold and all between-segment gaps `>` the
threshold) followed by the minimum-row filter. -/
theorem splitIntoTables_spec (rows : List (List TextItem)) :
    splitIntoTables rows =
      (chunkRows rows).filter (fun s => decide (MIN_TABLE_ROWS ≤ s.length)) ∧
    (chunkRows rows).flatten = rows ∧
    (∀ s ∈ chunkRows rows, s ≠ []) ∧
    (∀ s ∈ chunkRows rows,
      List.Chain' (fun a b => minY b - minY a ≤ TABLE_GAP_THRESHOLD) s) ∧
    List.Chain'
      (fun s t => ∀ a ∈ s.getLast?, ∀ b ∈ t.head?, TABLE_GAP_THRESHOLD < minY b - minY a)
      (chunkRows rows) := by
  cases rows with
  | nil => simp [splitIntoTables, chunkRows]
  | cons r rest =>
      refine ⟨splitAux_eq_filter_chunkAux rest [r] r, ?_, ?_, ?_, ?_⟩
      · simpa using chunkAux_flatten rest [r] r
      · exact chunkAux_ne_nil rest [r] r (by simp)
      · exact chunkAux_chain_inner rest [r] r (by simp) (by simp)
      · exact chunkAux_chain_gap rest [r] r (by simp)

/-- Input rows for the `splitIntoTables_spec` witness: the second gap is
exactly the threshold (no split), the third exceeds it by one (split). -/
def c4rows : List (List TextItem) :=
  [[⟨"A", 0, 0, 0, 0⟩], [⟨"B", 0, 25, 0, 0⟩], [⟨"C", 0, 51, 0, 0⟩]]

unseal Rat.add Rat.sub Rat.mul Rat.inv in
/-- Witness for `splitIntoTables_spec` at `c4rows`: the gap of exactly 25
does not split, the gap of 26 does, and the resulting one-row segment is
discarded. -/
theorem splitIntoTables_spec_witness :
    splitIntoTables c4rows = [[[⟨"A", 0, 0, 0, 0⟩], [⟨"B", 0, 25, 0, 0⟩]]] :=
  (splitIntoTables_spec c4rows).1.trans (by decide)

/-! ### Properties of the cell mapper -/

/-- Index of the first occurrence of `x` in a list of boundaries. -/
def firstIdxQ (x : ℚ) : List ℚ → Nat
  | [] => 0
  | b :: r => if b = x then 0 else firstIdxQ x r + 1

theorem firstIdxQ_lt_length (x : ℚ) :
    ∀ bs : List ℚ, x ∈ bs → firstIdxQ x bs < bs.length := by
  intro bs
  induction bs with
  | nil => intro h; simp at h
  | cons b r ih =>
      intro hm
      by_cases hb : b = x
      · simp [firstIdxQ, hb]
      · have : x ∈ r := by
          rcases List.mem_cons.mp hm with rfl | h
          · exact absurd rfl hb
          · exact h
        simp only [firstIdxQ, hb, if_false, List.length_cons]
        exact Nat.succ_lt_succ (ih this)

theorem firstIdxQ_getD (x : ℚ) :
    ∀ bs : List ℚ, x ∈ bs → bs.getD (firstIdxQ x bs) 0 = x := by
  intro bs
  induction bs with
  | nil => intro h; simp at h
  | cons b r ih =>
      intro hm
      by_cases hb : b = x
      · simp [firstIdxQ, hb]
      · have : x ∈ r := by
          rcases List.mem_cons.mp hm with rfl | h
          · exact absurd rfl hb
          · exact h
        simp only [firstIdxQ, hb, if_false]
        simpa using ih this

theorem firstIdxQ_unique (x : ℚ) :
    ∀ bs : List ℚ, bs.Nodup → ∀ j, j < bs.length → bs.getD j 0 = x →
      firstIdxQ x bs = j := by
  intro bs
  induction bs with
  | nil => intro _ j hj _; simp at hj
  | cons b r ih =>
      intro hnd j hj hget
      rcases List.nodup_cons.mp hnd with ⟨hb, hr⟩
      cases j with
      | zero =>
          simp only [List.getD_cons_zero] at hget
          simp [firstIdxQ, hget]
      | succ j =>
          simp only [List.getD_cons_succ] at hget
          have hjr : j < r.length := Nat.lt_of_succ_lt_succ (by simpa using hj)
          have hxr : x ∈ r := by
            have := List.getD_eq_getElem r 0 hjr
            rw [hget] at this
            exact this ▸ List.getElem_mem hjr
          have hbx : b ≠ x := by
            intro h
            exact hb (h ▸ hxr)
          simp only [firstIdxQ, hbx, if_false]
          exact congrArg (· + 1) (ih hr j hjr hget)

theorem closestColGo_bestDist_zero (x : ℚ) :
    ∀ (rest : List ℚ) (i bestIdx : Nat), closestColGo x rest i bestIdx 0 = bestIdx := by
  intro rest
  induction rest with
  | nil => intro i bi; rfl
  | cons b r ih =>
      intro i bi
      have : ¬ (|x - b| < (0 : ℚ)) := not_lt_of_le (abs_nonneg _)
      simp only [closestColGo, decide_eq_true_iff, this, if_false]
      exact ih _ _

theorem closestColGo_first_mem (x : ℚ) :
    ∀ (rest : List ℚ) (i bestIdx : Nat) (bestDist : ℚ), 0 < bestDist → x ∈ rest →
      closestColGo x rest i bestIdx bestDist = i + firstIdxQ x rest := by
  intro rest
  induction rest with
  | nil => intro i bi bd _ h; simp at h
  | cons b r ih =>
      intro i bi bd hbd hm
      by_cases hb : b = x
      · have h0 : |x - b| = 0 := by rw [hb]; simp
        rw [closestColGo, h0]
        simp only [decide_eq_true_iff, hbd, if_true, firstIdxQ, hb, if_pos rfl]
        rw [closestColGo_bestDist_zero]
        omega
      · have hxr : x ∈ r := by
          rcases List.mem_cons.mp hm with rfl | h
          · exact absurd rfl hb
          · exact h
        have habs : 0 < |x - b| :=
          abs_pos.mpr (sub_ne_zero.mpr (fun hxx => hb hxx.symm))
        rw [closestColGo]
        by_cases hlt : |x - b| < bd
        · simp only [decide_eq_true_iff, hlt, if_true]
          rw [ih _ _ _ habs hxr]
          simp only [firstIdxQ, hb, if_false]
          omega
        · simp only [decide_eq_true_iff, hlt, if_false]
          rw [ih _ _ _ hbd hxr]
          simp only [firstIdxQ, hb, if_false]
          omega

theorem closestColumn_eq_firstIdxQ (x : ℚ) (bs : List ℚ) (hm : x ∈ bs) :
    closestColumn x bs = firstIdxQ x bs := by
  cases bs with
  | nil => simp at hm
  | cons b r =>
      by_cases hb : b = x
      · subst hb
        have : |b - b| = (0 : ℚ) := by simp
        rw [closestColumn, this, closestColGo_bestDist_zero]
        simp [firstIdxQ]
      · have hxr : x ∈ r := by
          rcases List.mem_cons.mp hm with rfl | h
          · exact absurd rfl hb
          · exact h
        have habs : 0 < |x - b| :=
          abs_pos.mpr (sub_ne_zero.mpr (fun hxx => hb hxx.symm))
        rw [closestColumn, closestColGo_first_mem x r 1 0 _ habs hxr]
        simp only [firstIdxQ, hb, if_false]
        omega

theorem getD_set_self (l : List String) (i : Nat) (a : String) (h : i < l.length) :
    (l.set i a).getD i "" = a := by
  simp [List.getD_eq_getElem?_getD, List.getElem?_set_self, h]

theorem getD_set_ne (l : List String) (i j : Nat) (a : String) (h : i ≠ j) :
    (l.set i a).getD j "" = l.getD j "" := by
  simp [List.getD_eq_getElem?_getD, List.getElem?_set_ne h]

theorem mapRowFold_length (bs : List ℚ) :
    ∀ (row : List TextItem) (acc : List String),
      (row.foldl
        (fun result it =>
          let j := closestColumn it.x bs
          result.set j (cellAppend (result.getD j "") it.str)) acc).length = acc.length := by
  intro row
  induction row with
  | nil => intro acc; rfl
  | cons it rest ih =>
      intro acc
      rw [List.foldl_cons, ih]
      exact List.length_set ..

theorem mapRowFold_preserve (bs : List ℚ) :
    ∀ (row : List TextItem) (acc : List String) (j : Nat),
      (∀ it ∈ row, closestColumn it.x bs ≠ j) →
      (row.foldl
        (fun result it =>
          let j := closestColumn it.x bs
          result.set j (cellAppend (result.getD j "") it.str)) acc).getD j "" =
        acc.getD j "" := by
  intro row
  induction row with
  | nil => intro acc j _; rfl
  | cons it rest ih =>
      intro acc j hne
      rw [List.foldl_cons]
      rw [ih _ j (fun it2 h2 => hne it2 (List.mem_cons_of_mem it h2))]
      exact getD_set_ne _ _ _ _ (hne it (List.mem_cons_self it rest))

theorem mapRowFold_getD (bs : List ℚ) (hnd : bs.Nodup) :
    ∀ (row : List TextItem) (acc : List String),
      acc.length = bs.length →
      (∀ it ∈ row, it.x ∈ bs) →
      (row.map TextItem.x).Nodup →
      ∀ j, j < bs.length → acc.getD j "" = "" →
      (row.foldl
        (fun result it =>
          let j := closestColumn it.x bs
          result.set j (cellAppend (result.getD j "") it.str)) acc).getD j "" =
        (match row.find? (fun it => decide (it.x = bs.getD j 0)) with
         | some it => it.str
         | none => "") := by
  intro row
  induction row with
  | nil =>
      intro acc _ _ _ j _ hj
      simpa using hj
  | cons it rest ih =>
      intro acc hlen hx hnodup j hjlt hj
      have hxmem : it.x ∈ bs := hx it (List.mem_cons_self it rest)
      have hclo : closestColumn it.x bs = firstIdxQ it.x bs :=
        closestColumn_eq_firstIdxQ it.x bs hxmem
      rw [List.foldl_cons]
      by_cases hp : it.x = bs.getD j 0
      · have hkj : closestColumn it.x bs = j := by
          rw [hclo]
          exact firstIdxQ_unique it.x bs hnd j hjlt hp.symm
        have hrest : ∀ it2 ∈ rest, closestColumn it2.x bs ≠ j := by
          intro it2 h2 hc
          have hx2 : it2.x ∈ bs := hx it2 (List.mem_cons_of_mem it h2)
          have : bs.getD j 0 = it2.x := by
            rw [← hc, closestColumn_eq_firstIdxQ it2.x bs hx2]
            exact firstIdxQ_getD it2.x bs hx2
          have hxx : it2.x = it.x := by rw [← this, ← hp]
          have : it.x ∈ rest.map TextItem.x := by
            rw [← hxx]
            exact List.mem_map_of_mem TextItem.x h2
          rw [List.map_cons] at hnodup
          rcases List.nodup_cons.mp hnodup with ⟨hni, _⟩
          exact hni this
        rw [mapRowFold_preserve bs rest _ j hrest]
        simp only [hkj]
        rw [getD_set_self _ _ _ (by rw [hlen]; exact hjlt)]
        rw [hj]
        have hfind : List.find? (fun it2 => decide (it2.x = bs.getD j 0)) (it :: rest) = some it := by
          rw [List.find?_cons_of_pos]
          simpa using hp
        rw [hfind]
        simp [cellAppend]
      · have hkj : closestColumn it.x bs ≠ j := by
          rw [hclo]
          intro hc
          apply hp
          rw [← hc]
          exact (firstIdxQ_getD it.x bs hxmem).symm
        have hacc2 : ((acc.set (closestColumn it.x bs)
            (cellAppend (acc.getD (closestColumn it.x bs) "") it.str))).getD j "" = "" := by
          rw [getD_set_ne _ _ _ _ hkj]
          exact hj
        have hfind : List.find? (fun it2 => decide (it2.x = bs.getD j 0)) (it :: rest) =
            List.find? (fun it2 => decide (it2.x = bs.getD j 0)) rest := by
          rw [List.find?_cons_of_neg]
          simpa using hp
        rw [hfind]
        have := ih (acc.set (closestColumn it.x bs)
            (cellAppend (acc.getD (closestColumn it.x bs) "") it.str))
          (by rw [List.length_set]; exact hlen)
          (fun it2 h2 => hx it2 (List.mem_cons_of_mem it h2))
          (by rw [List.map_cons] at hnodup; exact (List.nodup_cons.mp hnodup).2)
          j hjlt hacc2
        exact this

/-- Claim C2.  Cell-mapper round trip: when the anchors are pairwise
distinct, every fragment of the row sits exactly on one anchor, and no two
fragments share an X position (a synthetic grid row), then `mapRowToColumns`
reproduces the original grid exactly — the cell of each anchor holds
precisely the text of the fragment placed on that anchor (empty when the
anchor has no fragment), with no fragment assigned to a different anchor. -/
theorem mapRowToColumns_grid_roundtrip (row : List TextItem) (bs : List ℚ)
    (hnd : bs.Nodup) (hx : ∀ it ∈ row, it.x ∈ bs) (hrow : (row.map TextItem.x).Nodup) :
    mapRowToColumns row bs =
      bs.map (fun b =>
        match row.find? (fun it => decide (it.x = b)) with
        | some it => it.str
        | none => "") := by
  have hlen : (mapRowToColumns row bs).length = bs.length := by
    unfold mapRowToColumns
    rw [mapRowFold_length]
    exact List.length_replicate ..
  apply List.ext_getElem
  · rw [hlen]
    exact (List.length_map _ _).symm
  · intro i h1 h2
    have hilt : i < bs.length := by rw [← hlen]; exact h1
    have lhs : (mapRowToColumns row bs)[i] = (mapRowToColumns row bs).getD i "" :=
      (List.getD_eq_getElem _ "" h1).symm
    rw [lhs]
    unfold mapRowToColumns
    rw [mapRowFold_getD bs hnd row (List.replicate bs.length "")
      (List.length_replicate ..) hx hrow i hilt (by simp [List.getD_eq_getElem?_getD])]
    rw [List.getElem_map]
    have : bs.getD i 0 = bs[i] := List.getD_eq_getElem bs 0 hilt
    rw [this]

/-- Anchors for the `mapRowToColumns_grid_roundtrip` witness. -/
def c2anchors : List ℚ := [0, 100]

/-- Grid row for the `mapRowToColumns_grid_roundtrip` witness. -/
def c2row : List TextItem := [⟨"a", 0, 0, 0, 0⟩, ⟨"b", 100, 0, 0, 0⟩]

unseal Rat.add Rat.sub Rat.mul Rat.inv in
/-- Witness for `mapRowToColumns_grid_roundtrip` at a concrete 1×2 grid. -/
theorem mapRowToColumns_grid_roundtrip_witness :
    mapRowToColumns c2row c2anchors =
      c2anchors.map (fun b =>
        match c2row.find? (fun it => decide (it.x = b)) with
        | some it => it.str
        | none => "") :=
  mapRowToColumns_grid_roundtrip c2row c2anchors (by decide) (by decide) (by decide)

/-! ### Properties of the direct-lookup cell search -/

/-- Claim C3.  `findCellValue` returns the not-found signal exactly when no
fragment lies within both tolerances with non-empty trimmed text, and any
returned string is the trimmed text of a qualifying fragment of minimal
Manhattan distance to the header/row intersection; the function is total, so
no lookup throws. -/
theorem findCellValue_spec (items : List TextItem) (headerItem rowItem : TextItem)
    (xTolerance yTolerance : ℚ) :
    ((findCellValue items headerItem rowItem xTolerance yTolerance = none) ↔
      ∀ it ∈ items, qualifiesCell headerItem rowItem xTolerance yTolerance it = false) ∧
    (∀ s, findCellValue items headerItem rowItem xTolerance yTolerance = some s →
      ∃ it, it ∈ items ∧
        qualifiesCell headerItem rowItem xTolerance yTolerance it = true ∧
        s = jsTrim it.str ∧
        ∀ it2 ∈ items, qualifiesCell headerItem rowItem xTolerance yTolerance it2 = true →
          manhattan headerItem rowItem it ≤ manhattan headerItem rowItem it2) := by
  set q := qualifiesCell headerItem rowItem xTolerance yTolerance with hq
  set mle : TextItem → TextItem → Bool := fun a b =>
    decide (manhattan headerItem rowItem a ≤ manhattan headerItem rowItem b) with hmle
  constructor
  · constructor
    · intro hnone
      cases hc : items.filter q with
      | nil =>
          intro it hit
          by_contra hne
          have : it ∈ items.filter q := List.mem_filter.mpr ⟨hit, by
            cases hqit : q it
            · exact absurd hqit hne
            · rfl⟩
          rw [hc] at this
          simp at this
      | cons c cs =>
          exfalso
          unfold findCellValue at hnone
          rw [hc] at hnone
          simp at hnone
    · intro hall
      unfold findCellValue
      cases hc : items.filter q with
      | nil => rfl
      | cons c cs =>
          exfalso
          have : c ∈ items.filter q := by rw [hc]; exact List.mem_cons_self c cs
          rcases List.mem_filter.mp this with ⟨hmem, hqc⟩
          rw [hall c hmem] at hqc
          simp at hqc
  · intro s hs
    unfold findCellValue at hs
    cases hc : items.filter q with
    | nil => rw [hc] at hs; simp at hs
    | cons c cs =>
        rw [hc] at hs
        simp only [Option.some_inj] at hs
        have hlen : (sortBy mle (c :: cs)).length = (c :: cs).length := length_sortBy ..
        cases hsorted : sortBy mle (c :: cs) with
        | nil => rw [hsorted] at hlen; simp at hlen
        | cons h t =>
            rw [hsorted] at hs
            simp only [List.headD_cons] at hs
            have hmem : h ∈ items.filter q := by
              have hmem0 : h ∈ sortBy mle (c :: cs) := by
                rw [hsorted]
                exact List.mem_cons_self h t
              rw [mem_sortBy] at hmem0
              rw [hc]
              exact hmem0
            rcases List.mem_filter.mp hmem with ⟨hmem2, hqh⟩
            refine ⟨h, hmem2, hqh, hs.symm, ?_⟩
            intro it2 hit2 hq2
            have hmem3 : it2 ∈ h :: t := by
              rw [← hsorted, mem_sortBy, ← hc]
              exact List.mem_filter.mpr ⟨hit2, hq2⟩
            have hpw := pairwise_sortBy mle
              (by
                intro a b
                rcases le_total (manhattan headerItem rowItem a) (manhattan headerItem rowItem b)
                  with hle | hle <;> simp [hmle, hle])
              (by
                intro a b c2 hab hbc
                simp only [hmle, decide_eq_true_iff] at hab hbc ⊢
                exact le_trans hab hbc)
              (c :: cs)
            rw [hsorted] at hpw
            rcases List.mem_cons.mp hmem3 with rfl | hmem4
            · exact le_refl _
            · have := (List.pairwise_cons.mp hpw).1 it2 hmem4
              simp only [hmle, decide_eq_true_iff] at this
              exact this

/-- Items for the `findCellValue_spec` witness: the header and the row label
alone, with no qualifying value fragment near their intersection. -/
def c3items : List TextItem :=
  [⟨"Calories", 150, 100, 0, 0⟩, ⟨"Cheese Pizza", 20, 130, 0, 0⟩]

unseal Rat.add Rat.sub Rat.mul Rat.inv in
/-- Witness for `findCellValue_spec`: with no fragment inside both
tolerances the lookup reports not-found rather than failing. -/
theorem findCellValue_spec_witness :
    findCellValue c3items ⟨"Calories", 150, 100, 0, 0⟩ ⟨"Cheese Pizza", 20, 130, 0, 0⟩ 40 15 =
      none :=
  (findCellValue_spec c3items ⟨"Calories", 150, 100, 0, 0⟩ ⟨"Cheese Pizza", 20, 130, 0, 0⟩
    40 15).1.mpr (by decide)

/-! ### Properties of the column-count statistics -/

/-- Generalized selection fold over a key list with an abstract count
function, used to reason about `typicalFold`. -/
def typicalFoldC (cnt : Nat → Nat) (keys : List Nat) (acc : Nat × Nat) : Nat × Nat :=
  keys.foldl (fun a c => if MIN_COLUMNS ≤ c ∧ a.1 < cnt c then (cnt c, c) else a) acc

theorem typicalFold_eq_typicalFoldC (lens keys : List Nat) :
    typicalFold lens keys = typicalFoldC (fun k => lens.count k) keys (0, 0) := rfl

theorem typicalFoldC_spec (cnt : Nat → Nat) :
    ∀ (keys : List Nat) (acc : Nat × Nat),
      List.Pairwise (· < ·) keys →
      (∀ k ∈ keys, 1 ≤ cnt k) →
      (∀ k ∈ keys, MIN_COLUMNS ≤ k → acc.2 < k) →
      (∀ k ∈ keys, MIN_COLUMNS ≤ k → cnt k ≤ (typicalFoldC cnt keys acc).1) ∧
      acc.1 ≤ (typicalFoldC cnt keys acc).1 ∧
      (typicalFoldC cnt keys acc = acc ∨
        (acc.1 < (typicalFoldC cnt keys acc).1 ∧
         (typicalFoldC cnt keys acc).2 ∈ keys ∧
         MIN_COLUMNS ≤ (typicalFoldC cnt keys acc).2 ∧
         (typicalFoldC cnt keys acc).1 = cnt (typicalFoldC cnt keys acc).2)) ∧
      (∀ k ∈ keys, MIN_COLUMNS ≤ k → cnt k = (typicalFoldC cnt keys acc).1 →
        (typicalFoldC cnt keys acc).2 ≤ k) := by
  intro keys
  induction keys with
  | nil =>
      intro acc _ _ _
      refine ⟨by simp, le_refl _, Or.inl rfl, by simp⟩
  | cons c rest ih =>
      intro acc hsorted hmem hord
      rcases List.pairwise_cons.mp hsorted with ⟨hclt, hsorted2⟩
      by_cases hqual : MIN_COLUMNS ≤ c ∧ acc.1 < cnt c
      · have hstep : typicalFoldC cnt (c :: rest) acc = typicalFoldC cnt rest (cnt c, c) := by
          simp [typicalFoldC, hqual]
        obtain ⟨ic1, ic2, ic3, ic4⟩ := ih (cnt c, c) hsorted2
          (fun k hk => hmem k (List.mem_cons_of_mem c hk))
          (fun k hk _ => hclt k hk)
        rw [hstep]
        refine ⟨?_, ?_, ?_, ?_⟩
        · intro k hk h2
          rcases List.mem_cons.mp hk with rfl | hk
          · exact le_trans (le_refl (cnt k)) ic2
          · exact ic1 k hk h2
        · exact le_trans (le_of_lt hqual.2) ic2
        · rcases ic3 with heq | ⟨hlt, hmemk, h2, hcnt⟩
          · refine Or.inr ⟨?_, ?_, ?_, ?_⟩
            · rw [heq]; exact hqual.2
            · rw [heq]; exact List.mem_cons_self c rest
            · rw [heq]; exact hqual.1
            · rw [heq]
          · exact Or.inr ⟨lt_trans hqual.2 hlt, List.mem_cons_of_mem c hmemk, h2, hcnt⟩
        · intro k hk h2 hkcnt
          rcases List.mem_cons.mp hk with rfl | hk
          · rcases ic3 with heq | ⟨hlt, _, _, _⟩
            · rw [heq]
            · exfalso
              have hlt2 : cnt k < (typicalFoldC cnt rest (cnt k, k)).1 := hlt
              omega
          · exact ic4 k hk h2 hkcnt
      · have hstep : typicalFoldC cnt (c :: rest) acc = typicalFoldC cnt rest acc := by
          simp [typicalFoldC, hqual]
        obtain ⟨ic1, ic2, ic3, ic4⟩ := ih acc hsorted2
          (fun k hk => hmem k (List.mem_cons_of_mem c hk))
          (fun k hk h2 => hord k (List.mem_cons_of_mem c hk) h2)
        rw [hstep]
        have hcle : MIN_COLUMNS ≤ c → cnt c ≤ acc.1 := by
          intro h2
          by_contra hgt
          exact hqual ⟨h2, Nat.lt_of_not_le hgt⟩
        refine ⟨?_, ic2, ?_, ?_⟩
        · intro k hk h2
          rcases List.mem_cons.mp hk with rfl | hk
          · exact le_trans (hcle h2) ic2
          · exact ic1 k hk h2
        · rcases ic3 with heq | ⟨hlt, hmemk, h2, hcnt⟩
          · exact Or.inl heq
          · exact Or.inr ⟨hlt, List.mem_cons_of_mem c hmemk, h2, hcnt⟩
        · intro k hk h2 hkcnt
          rcases List.mem_cons.mp hk with rfl | hk
          · have h1 : cnt k ≤ acc.1 := hcle h2
            have h3 : acc.1 = (typicalFoldC cnt rest acc).1 := by
              refine le_antisymm ic2 ?_
              rw [← hkcnt]
              exact h1
            rcases ic3 with heq | ⟨hlt, _, _, _⟩
            · rw [heq]
              exact le_of_lt (hord k (List.mem_cons_self k rest) h2)
            · exfalso
              omega
          · exact ic4 k hk h2 hkcnt

theorem le_foldl_max : ∀ (l : List Nat) (a : Nat), a ≤ l.foldl max a := by
  intro l
  induction l with
  | nil => intro a; exact le_refl a
  | cons b t ih =>
      intro a
      exact le_trans (Nat.le_max_left a b) (ih (max a b))

theorem mem_le_foldl_max : ∀ (l : List Nat) (a x : Nat), x ∈ l → x ≤ l.foldl max a := by
  intro l
  induction l with
  | nil => intro a x h; simp at h
  | cons b t ih =>
      intro a x h
      rcases List.mem_cons.mp h with rfl | h
      · exact le_trans (Nat.le_max_right a x) (le_foldl_max t (max a x))
      · exact ih (max a b) x h

theorem mem_ascendingKeys (lens : List Nat) (k : Nat) :
    k ∈ ascendingKeys lens ↔ k ∈ lens := by
  constructor
  · intro h
    rcases List.mem_filter.mp h with ⟨_, h2⟩
    simpa using h2
  · intro h
    refine List.mem_filter.mpr ⟨?_, by simpa using h⟩
    rw [List.mem_range]
    exact Nat.lt_succ_of_le (mem_le_foldl_max lens 0 k h)

theorem pairwise_ascendingKeys (lens : List Nat) :
    List.Pairwise (· < ·) (ascendingKeys lens) :=
  (List.pairwise_lt_range _).sublist (List.filter_sublist _)

/-- Claim C5 (amended).  `findTypicalColumnCount` returns 0 when no row
reaches `MIN_COLUMNS`, and otherwise returns a most frequent qualifying row
length, breaking frequency ties toward the smallest such length (the
`counts` object enumerates its integer keys in ascending order). -/
theorem findTypicalColumnCount_spec (rows : List (List α)) :
    ((∀ l ∈ rows.map List.length, l < MIN_COLUMNS) → findTypicalColumnCount rows = 0) ∧
    (∀ l ∈ rows.map List.length, MIN_COLUMNS ≤ l →
      MIN_COLUMNS ≤ findTypicalColumnCount rows ∧
      findTypicalColumnCount rows ∈ rows.map List.length ∧
      (rows.map List.length).count l ≤
        (rows.map List.length).count (findTypicalColumnCount rows) ∧
      ((rows.map List.length).count l =
          (rows.map List.length).count (findTypicalColumnCount rows) →
        findTypicalColumnCount rows ≤ l)) := by
  set lens := rows.map List.length with hlens
  set keys := ascendingKeys lens with hkeys
  have hcnt1 : ∀ k ∈ keys, 1 ≤ (fun k => lens.count k) k := by
    intro k hk
    have hkmem : k ∈ lens := (mem_ascendingKeys lens k).mp hk
    exact Nat.pos_of_ne_zero (fun h0 => (List.count_eq_zero.mp h0) hkmem)
  obtain ⟨hc1, hc2, hc3, hc4⟩ := typicalFoldC_spec (fun k => lens.count k) keys (0, 0)
    (pairwise_ascendingKeys lens) hcnt1 (by intro k _ h2; simpa using Nat.lt_of_lt_of_le Nat.zero_lt_two h2)
  have hres : findTypicalColumnCount rows =
      (typicalFoldC (fun k => lens.count k) keys (0, 0)).2 := rfl
  constructor
  · intro hall
    rcases hc3 with heq | ⟨_, hmemk, h2, _⟩
    · rw [hres, heq]
    · exfalso
      have : (typicalFoldC (fun k => lens.count k) keys (0, 0)).2 ∈ lens :=
        (mem_ascendingKeys lens _).mp hmemk
      exact Nat.lt_irrefl _ (Nat.lt_of_lt_of_le (hall _ this) h2)
  · intro l hl h2
    have hlkeys : l ∈ keys := (mem_ascendingKeys lens l).mpr hl
    have hcl : lens.count l ≤ (typicalFoldC (fun k => lens.count k) keys (0, 0)).1 :=
      hc1 l hlkeys h2
    have hpos : 1 ≤ (typicalFoldC (fun k => lens.count k) keys (0, 0)).1 :=
      le_trans (hcnt1 l hlkeys) hcl
    rcases hc3 with heq | ⟨_, hmemk, hge2, hcnteq⟩
    · exfalso
      rw [heq] at hpos
      simp at hpos
    · refine ⟨by rw [hres]; exact hge2, ?_, ?_, ?_⟩
      · rw [hres]
        exact (mem_ascendingKeys lens _).mp hmemk
      · rw [hres, ← hcnteq]
        exact hcl
      · intro htie
        rw [hres]
        refine hc4 l hlkeys h2 ?_
        rw [hcnteq]
        exact htie

/-- Deduplication keeping first occurrences, with an explicit seen-set. -/
def firstSeenKeysGo : List Nat → List Nat → List Nat
  | [], _ => []
  | x :: r, seen =>
      if x ∈ seen then firstSeenKeysGo r seen else x :: firstSeenKeysGo r (x :: seen)

/-- The distinct row lengths in first-seen order. -/
def firstSeenKeys (l : List Nat) : List Nat := firstSeenKeysGo l []

/-- Modelled from the claim's words for C5: the most frequent row length
among rows of length at least `MIN_COLUMNS`, with frequency ties keeping the
first-seen length in row order. -/
def specTypicalFirstSeen (rows : List (List α)) : Nat :=
  let lens := rows.map List.length
  (typicalFoldC (fun k => lens.count k) (firstSeenKeys lens) (0, 0)).2

/-- Rows whose lengths are `[5, 5, 3, 3]`: lengths 5 and 3 tie with
frequency two each. -/
def c5rows : List (List Nat) := [[0, 1, 2, 3, 4], [0, 1, 2, 3, 4], [0, 1, 2], [0, 1, 2]]

/-- Claim C5 (counterexample).  On a frequency tie the code returns the
smallest qualifying length (3), because `Object.entries` enumerates integer
keys in ascending order, not the first-seen length in row order (5) that the
claim specifies. -/
theorem findTypicalColumnCount_counterexample :
    findTypicalColumnCount c5rows = 3 ∧ specTypicalFirstSeen c5rows = 5 := by
  decide

/-- Rows for the `findTypicalColumnCount_spec` witness. -/
def c5witnessRows : List (List Nat) := [[0, 1], [0, 1], [0, 1, 2]]

/-- Witness for `findTypicalColumnCount_spec` at `c5witnessRows`. -/
theorem findTypicalColumnCount_spec_witness :
    findTypicalColumnCount c5witnessRows ∈ c5witnessRows.map List.length :=
  ((findTypicalColumnCount_spec c5witnessRows).2 2 (by decide) (by decide)).2.1

/-! ### Properties of the header-row classifier -/

theorem takeWhile_all (p : α → Bool) :
    ∀ l : List α, (∀ a ∈ l, p a = true) → List.takeWhile p l = l := by
  intro l
  induction l with
  | nil => intro _; rfl
  | cons a t ih =>
      intro h
      rw [List.takeWhile_cons, h a (List.mem_cons_self a t),
        ih (fun b hb => h b (List.mem_cons_of_mem a hb))]
      simp

theorem dropWhile_all (p : α → Bool) :
    ∀ l : List α, (∀ a ∈ l, p a = true) → List.dropWhile p l = [] := by
  intro l
  induction l with
  | nil => intro _; rfl
  | cons a t ih =>
      intro h
      rw [List.dropWhile_cons, h a (List.mem_cons_self a t)]
      simp only [if_true]
      exact ih (fun b hb => h b (List.mem_cons_of_mem a hb))

theorem digit_or_dot_of_regex (s : String) (h : regexDecTest s = true) :
    ∀ ch ∈ s.toList, ch.isDigit = true ∨ ch = '.' := by
  intro ch hch
  unfold regexDecTest regexTail at h
  rcases Bool.and_eq_true_iff.mp h with ⟨hip, hrest⟩
  have hsplit := List.takeWhile_append_dropWhile (p := Char.isDigit) (l := s.toList)
  rw [← hsplit] at hch
  rcases List.mem_append.mp hch with hch | hch
  · exact Or.inl (List.mem_takeWhile_imp hch)
  · cases hd : List.dropWhile Char.isDigit s.toList with
    | nil => rw [hd] at hch; simp at hch
    | cons c fr =>
        rw [hd] at hrest hch
        rcases Bool.and_eq_true_iff.mp hrest with ⟨hc, hfr⟩
        rcases List.mem_cons.mp hch with rfl | hch
        · exact Or.inr (by simpa using hc)
        · refine Or.inl ?_
          rw [List.all_eq_true] at hfr
          exact hfr ch hch

theorem regex_imp_jsIsNumeric (s : String) (h : regexDecTest s = true) :
    jsIsNumeric s = true := by
  have hdd := digit_or_dot_of_regex s h
  unfold regexDecTest regexTail at h
  rcases Bool.and_eq_true_iff.mp h with ⟨hip, hrest⟩
  cases hcs : s.toList with
  | nil =>
      rw [hcs] at hip
      simp at hip
  | cons c r =>
      have hcdig : c.isDigit = true := by
        rw [hcs, List.takeWhile_cons] at hip
        by_cases hc : c.isDigit = true
        · exact hc
        · rw [Bool.not_eq_true] at hc
          rw [hc] at hip
          simp at hip
      have hcsign : (decide (c = '+') || decide (c = '-')) = false := by
        by_cases hplus : c = '+'
        · subst hplus
          exact absurd hcdig (by decide)
        · by_cases hminus : c = '-'
          · subst hminus
            exact absurd hcdig (by decide)
          · simp [hplus, hminus]
      have hnoe : ∀ ch ∈ s.toList, notExp ch = true := by
        intro ch hch
        rcases hdd ch hch with hd | hd
        · by_cases he : ch = 'e'
          · subst he
            exact absurd hd (by decide)
          · by_cases hE : ch = 'E'
            · subst hE
              exact absurd hd (by decide)
            · simp [notExp, he, hE]
        · subst hd
          decide
      have hmant : mantOK s.toList = true := by
        unfold mantOK mantTail
        cases hd : List.dropWhile Char.isDigit s.toList with
        | nil => exact hip
        | cons c2 fr =>
            rw [hd] at hrest
            rcases Bool.and_eq_true_iff.mp hrest with ⟨hc2, hfr⟩
            have hipe : (List.takeWhile Char.isDigit s.toList).isEmpty = false := by
              cases hie : (List.takeWhile Char.isDigit s.toList).isEmpty
              · rfl
              · rw [hie] at hip
                simp at hip
            rw [Bool.and_eq_true_iff]
            refine ⟨hc2, ?_⟩
            rw [hipe]
            simp only [Bool.false_eq_true, if_false]
            exact hfr
      have hdec : decExpOK s.toList = true := by
        unfold decExpOK
        rw [takeWhile_all _ _ hnoe, dropWhile_all _ _ hnoe]
        unfold decExpSplit
        exact hmant
      have hdec2 : decExpOK (c :: r) = true := by rw [← hcs]; exact hdec
      unfold jsIsNumeric
      rw [hcs]
      simp [hcsign, hdec2]

/-- A cell participates in the classifier count when its trimmed text is
non-empty. -/
def keepCell (c : String) : Bool := decide (jsTrim c ≠ "")

/-- A cell counts as text in the classifier: non-empty, failing the `isNaN`
test and the decimal regex. -/
def textCell (c : String) : Bool :=
  keepCell c &&
    (!jsIsNumeric (cleanCell (jsTrim c)) && !regexDecTest (cleanCell (jsTrim c)))

theorem hdrCounts_go (cells : List String) :
    ∀ (a b : Nat),
      cells.foldl
        (fun acc c =>
          let cell := jsTrim c
          if cell ≠ "" then
            (if !jsIsNumeric (cleanCell cell) && !regexDecTest (cleanCell cell) then acc.1 + 1
             else acc.1,
             acc.2 + 1)
          else acc) (a, b) =
        (a + cells.countP textCell, b + cells.countP keepCell) := by
  induction cells with
  | nil => intro a b; simp
  | cons c rest ih =>
      intro a b
      rw [List.foldl_cons]
      by_cases hkeep : jsTrim c = ""
      · have hk : keepCell c = false := by simp [keepCell, hkeep]
        have ht : textCell c = false := by simp [textCell, hk]
        simp only [hkeep, ne_eq, not_true_eq_false, if_false]
        rw [ih a b, List.countP_cons_of_neg _ _ (by rw [ht]; simp),
          List.countP_cons_of_neg _ _ (by rw [hk]; simp)]
      · have hk : keepCell c = true := by simp [keepCell, hkeep]
        by_cases htxt : (!jsIsNumeric (cleanCell (jsTrim c)) &&
            !regexDecTest (cleanCell (jsTrim c))) = true
        · have ht : textCell c = true := by
            rw [textCell, hk, htxt]
            rfl
          simp only [hkeep, ne_eq, not_false_eq_true, if_true, htxt, ite_true]
          rw [ih (a + 1) (b + 1), List.countP_cons_of_pos _ _ ht,
            List.countP_cons_of_pos _ _ hk]
          simp only [Prod.mk.injEq]
          exact ⟨by omega, by omega⟩
        · have ht : textCell c = false := by
            rw [Bool.not_eq_true] at htxt
            rw [textCell, hk, htxt]
            rfl
          rw [Bool.not_eq_true] at htxt
          simp only [hkeep, ne_eq, not_false_eq_true, if_true, htxt,
            Bool.false_eq_true, if_false]
          rw [ih a (b + 1), List.countP_cons_of_neg _ _ (by rw [ht]; simp),
            List.countP_cons_of_pos _ _ hk]
          simp only [Prod.mk.injEq]
          exact ⟨trivial, by omega⟩

theorem hdrCounts_eq (cells : List String) :
    hdrCounts cells = (cells.countP textCell, cells.countP keepCell) := by
  have h := hdrCounts_go cells 0 0
  simpa [hdrCounts] using h

theorem textCell_eq_no_regex (c : String) :
    textCell c = (keepCell c && !jsIsNumeric (cleanCell (jsTrim c))) := by
  by_cases hjs : jsIsNumeric (cleanCell (jsTrim c)) = true
  · simp [textCell, hjs]
  · have hreg : regexDecTest (cleanCell (jsTrim c)) = false := by
      cases hr : regexDecTest (cleanCell (jsTrim c))
      · rfl
      · exact absurd (regex_imp_jsIsNumeric _ hr) hjs
    rw [Bool.not_eq_true] at hjs
    simp [textCell, hjs, hreg]

theorem ratio_iff (t tot : Nat) (hle : t ≤ tot) :
    (0 < tot ∧ (1 : ℚ) / 2 < (t : ℚ) / (tot : ℚ)) ↔ tot < 2 * t := by
  constructor
  · rintro ⟨hpos, hlt⟩
    have h2 : (0 : ℚ) < 2 := by norm_num
    have htot : (0 : ℚ) < (tot : ℚ) := by exact_mod_cast hpos
    rw [div_lt_div_iff₀ h2 htot] at hlt
    have hq : (tot : ℚ) < 2 * t := by linarith
    exact_mod_cast hq
  · intro h
    have htot : 0 < tot := by omega
    refine ⟨htot, ?_⟩
    have h2 : (0 : ℚ) < 2 := by norm_num
    have htotq : (0 : ℚ) < (tot : ℚ) := by exact_mod_cast htot
    rw [div_lt_div_iff₀ h2 htotq]
    have hq : (tot : ℚ) < 2 * t := by exact_mod_cast h
    linarith

/-- The fraction test of the claim, parameterized by the numeric predicate:
more than half of the non-empty trimmed non-label cells fail the predicate
after stripping. -/
def rowHeaderFractionBy (numPred : String → Bool) (row : List String) : Bool :=
  decide ((((row.drop 1).map jsTrim).filter (fun c => decide (c ≠ ""))).length <
    2 * ((((row.drop 1).map jsTrim).filter (fun c => decide (c ≠ ""))).filter
      (fun c => !numPred (cleanCell c))).length)

/-- The header-row index as the claim states it, parameterized by the
numeric predicate: the first of the first five mapped rows whose fraction of
non-empty non-label cells that are non-numeric exceeds one half, and 0 when
no such row exists. -/
def specHeaderIdxBy (numPred : String → Bool) (mapped : List (List String)) : Nat :=
  match (mapped.take 5).findIdx? (rowHeaderFractionBy numPred) with
  | some i => i
  | none => 0

theorem isHeaderRowCode_eq (row : List String) :
    isHeaderRowCode row = rowHeaderFractionBy jsIsNumeric row := by
  unfold isHeaderRowCode rowHeaderFractionBy
  rw [hdrCounts_eq]
  have hl1 : (((row.drop 1).map jsTrim).filter (fun c => decide (c ≠ ""))).length =
      (row.drop 1).countP keepCell := by
    rw [← List.countP_eq_length_filter, List.countP_map]
    rfl
  have hl2 : ((((row.drop 1).map jsTrim).filter (fun c => decide (c ≠ ""))).filter
      (fun c => !jsIsNumeric (cleanCell c))).length =
      (row.drop 1).countP textCell := by
    rw [← List.countP_eq_length_filter, List.countP_filter, List.countP_map]
    apply List.countP_congr
    intro c _
    rw [textCell_eq_no_regex]
    simp only [Function.comp_apply, keepCell]
    rw [Bool.and_comm]
  have hle : (row.drop 1).countP textCell ≤ (row.drop 1).countP keepCell := by
    apply List.countP_mono_left
    intro c _ hc
    exact (Bool.and_eq_true_iff.mp hc).1
  rw [hl1, hl2]
  exact decide_eq_decide.mpr (ratio_iff _ _ hle)

theorem fhriGo_eq_findIdx :
    ∀ (l : List (List String)) (i : Nat),
      fhriGo i l =
        match List.findIdx? isHeaderRowCode l i with
        | some k => k
        | none => 0 := by
  intro l
  induction l with
  | nil => intro i; rfl
  | cons row rest ih =>
      intro i
      by_cases h : isHeaderRowCode row = true
      · rw [fhriGo, if_pos h, List.findIdx?, if_pos h]
      · rw [Bool.not_eq_true] at h
        rw [fhriGo, if_neg (by rw [h]; simp), List.findIdx?, if_neg (by rw [h]; simp)]
        exact ih (i + 1)

/-- Claim C6 (amended).  `findHeaderRowIndex` returns the index of the first
row among the first five mapped rows in which the fraction of non-empty
non-label cells that are non-numeric exceeds one half — where a stripped
cell counts as numeric exactly when JavaScript `Number` coercion accepts it
(`!isNaN(Number(cleaned))`), which in addition to signed decimal literals
also accepts the empty string, exponent notation, `Infinity`, and
binary/octal/hexadecimal literals — and 0 when no such row exists. -/
theorem findHeaderRowIndex_spec (mapped : List (List String)) :
    findHeaderRowIndex mapped = specHeaderIdxBy jsIsNumeric mapped := by
  unfold findHeaderRowIndex specHeaderIdxBy
  rw [fhriGo_eq_findIdx]
  have hfun : isHeaderRowCode = rowHeaderFractionBy jsIsNumeric :=
    funext isHeaderRowCode_eq
  rw [hfun]

/-- Modelled from the claim's words for C6: a strict signed decimal-number
pattern — an optional sign followed by a decimal mantissa (digits with an
optional fractional part), with no exponent, no `Infinity`, no non-decimal
prefix, and not the empty string. -/
def specSignedDecimal (s : String) : Bool :=
  match s.toList with
  | [] => false
  | c :: r => if c = '+' || c = '-' then mantOK r else mantOK (c :: r)

/-- Mapped rows for the claim C6 counterexample. -/
def c6rows : List (List String) := [["ab", "1"], ["cd", "Infinity"]]

unseal Rat.add Rat.sub Rat.mul Rat.inv in
/-- Claim C6 (counterexample).  The cell `Infinity` is numeric for the
code's `isNaN(Number(...))` test but does not match a signed decimal-number
pattern, so the code keeps index 0 while the claim as stated requires
index 1. -/
theorem findHeaderRowIndex_counterexample :
    findHeaderRowIndex c6rows = 0 ∧ specHeaderIdxBy specSignedDecimal c6rows = 1 := by
  decide

/-! ### Properties of the data-row classifier -/

/-- One emitted data-row record. -/
def mkDataRow (headers : List String) (tableIndex i : Nat) (rowData : List String) :
    TableRow :=
  { id := "table-" ++ toString tableIndex ++ "-row-" ++ toString i,
    label := jsTrim (rowData.getD 0 ""),
    values := buildValues headers rowData }

/-- The emission test the data-row loop actually implements: the trimmed
label has at least two characters, the sub-header skip does not fire, and
the built `values` is non-empty. -/
def keepDataRow (headers rowData : List String) : Bool :=
  !(decide (jsTrim (rowData.getD 0 "") = "") ||
      decide ((jsTrim (rowData.getD 0 "")).length < 2)) &&
    !subHeaderSkip rowData && !(buildValues headers rowData).isEmpty

/-- Claim C7 (amended).  The data-row loop emits exactly the rows whose
trimmed label has at least two characters, whose sub-header test does not
fire — that test examines the first non-label cell (`rowData[1]`), not the
label, and skips when that cell is non-empty and non-numeric while the
number of numeric non-label cells is below one third of the full row length
(label included) — and whose built `values` is non-empty; each emitted row
becomes a record with the trimmed label and those values. -/
theorem dataRowsGo_spec (headers : List String) (tableIndex : Nat) :
    ∀ (mapped : List (List String)) (i : Nat),
      dataRowsGo headers tableIndex i mapped =
        ((List.range' i mapped.length).zip mapped).filterMap
          (fun p =>
            if keepDataRow headers p.2 then some (mkDataRow headers tableIndex p.1 p.2)
            else none) := by
  intro mapped
  induction mapped with
  | nil => intro i; rfl
  | cons rowData rest ih =>
      intro i
      rw [List.length_cons, List.range'_succ, List.zip_cons_cons, List.filterMap_cons]
      by_cases hlab : jsTrim (rowData.getD 0 "") = "" ∨ (jsTrim (rowData.getD 0 "")).length < 2
      · have hkeep : keepDataRow headers rowData = false := by
          unfold keepDataRow
          rcases hlab with hl | hl
          · rw [hl]
            simp
          · rw [decide_eq_true hl]
            simp
        rw [dataRowsGo, if_pos hlab, hkeep]
        exact ih (i + 1)
      · have hlab1 : ¬ jsTrim (rowData.getD 0 "") = "" := fun h => hlab (Or.inl h)
        have hlab2 : ¬ (jsTrim (rowData.getD 0 "")).length < 2 := fun h => hlab (Or.inr h)
        by_cases hsub : subHeaderSkip rowData = true
        · have hkeep : keepDataRow headers rowData = false := by
            unfold keepDataRow
            rw [hsub]
            simp
          rw [dataRowsGo, if_neg hlab, if_pos hsub, hkeep]
          exact ih (i + 1)
        · by_cases hval : (buildValues headers rowData).isEmpty = true
          · have hkeep : keepDataRow headers rowData = false := by
              unfold keepDataRow
              rw [hval]
              simp
            rw [dataRowsGo, if_neg hlab, if_neg hsub, hkeep]
            simp only [if_pos hval]
            exact ih (i + 1)
          · have hkeep : keepDataRow headers rowData = true := by
              unfold keepDataRow
              rw [Bool.not_eq_true] at hsub hval
              rw [decide_eq_false hlab1, decide_eq_false hlab2, hsub, hval]
              rfl
            rw [dataRowsGo, if_neg hlab, if_neg hsub, hkeep]
            simp only [if_neg hval, if_true]
            rw [ih (i + 1)]
            rfl

/-- Modelled from the claim's words for C7: skip when the label cell is
empty or shorter than two characters, or when the label cell itself is
non-numeric-looking and fewer than one third of the row's remaining
(non-label) cells are numeric. -/
def claimSkipC7 (rowData : List String) : Bool :=
  decide (jsTrim (rowData.getD 0 "") = "") ||
    decide ((jsTrim (rowData.getD 0 "")).length < 2) ||
    (!jsIsNumeric (cleanCell (jsTrim (rowData.getD 0 ""))) &&
      decide ((((rowData.drop 1).countP numericDataCell : ℚ)) <
        ((rowData.drop 1).length : ℚ) / 3))

/-- Input rows for the claim C7 counterexample. -/
def c7rows : List (List TextItem) :=
  [[⟨"Lbl", 0, 0, 0, 0⟩, ⟨"Haa", 100, 0, 0, 0⟩, ⟨"Hbb", 200, 0, 0, 0⟩,
    ⟨"Hcc", 300, 0, 0, 0⟩, ⟨"Hdd", 400, 0, 0, 0⟩],
   [⟨"Hello", 0, 10, 0, 0⟩, ⟨"5", 100, 10, 0, 0⟩, ⟨"x", 200, 10, 0, 0⟩,
    ⟨"y", 300, 10, 0, 0⟩, ⟨"z", 400, 10, 0, 0⟩]]

/-- Fallback table used to destructure optional results in concrete
counterexamples. -/
def emptyTable : ParsedTable := { id := "", name := none, headers := [], rows := [] }

unseal Rat.add Rat.sub Rat.mul Rat.inv in
/-- Claim C7 (counterexample).  The data row maps to
`["Hello", "5", "x", "y", "z"]`: its label is non-numeric and only one of
its four remaining cells is numeric (fewer than one third), so the claim as
stated skips it; the code checks the first data cell `"5"` (numeric) instead
of the label, so the sub-header skip never fires and the row is emitted. -/
theorem rowsToTable_claimC7_counterexample :
    claimSkipC7 ["Hello", "5", "x", "y", "z"] = true ∧
    (c7rows.map (fun row =>
      mapRowToColumns row (detectColumnBoundaries c7rows (findTypicalColumnCount c7rows)))).getD
        1 [] = ["Hello", "5", "x", "y", "z"] ∧
    ((rowsToTable c7rows 0).getD emptyTable).rows.map (fun r => r.label) = ["Hello"] := by
  refine ⟨by decide, by decide, by decide⟩

/-! ### Properties of the values record -/

/-- A column index holds a valid header: non-empty trimmed text that does
not collide with the `Column j` placeholder. -/
def validHdr (headers : List String) (j : Nat) : Bool :=
  decide (jsTrim (headers.getD j "") ≠ "") &&
    decide (jsTrim (headers.getD j "") ≠ "Column " ++ toString j)

theorem insertJS_of_fresh (l : List (String × String)) (k v : String)
    (h : ∀ p ∈ l, p.1 ≠ k) : insertJS l k v = l ++ [(k, v)] := by
  unfold insertJS
  rw [if_neg]
  intro hany
  rcases List.any_eq_true.mp hany with ⟨p, hp, hpk⟩
  exact h p hp (by simpa using hpk)

theorem validHdr_cond (headers : List String) (j : Nat) :
    ((if jsTrim (headers.getD j "") = "" then "Column " ++ toString j
      else jsTrim (headers.getD j "")) ≠ "Column " ++ toString j) ↔
      validHdr headers j = true := by
  by_cases h0 : jsTrim (headers.getD j "") = ""
  · rw [if_pos h0]
    constructor
    · intro h
      exact absurd rfl h
    · intro h
      unfold validHdr at h
      rw [h0] at h
      simp at h
  · rw [if_neg h0]
    unfold validHdr
    rw [decide_eq_true h0]
    simp

theorem buildValuesGo_spec (headers rowData : List String) :
    ∀ (js : List Nat) (acc : List (String × String)),
      (∀ j ∈ js, validHdr headers j = true →
        ∀ p ∈ acc, p.1 ≠ jsTrim (headers.getD j "")) →
      ((js.filter (validHdr headers)).map (fun j => jsTrim (headers.getD j ""))).Nodup →
      buildValuesGo headers rowData js acc =
        acc ++ js.filterMap (fun j =>
          if validHdr headers j = true then
            some (jsTrim (headers.getD j ""), jsTrim (rowData.getD j ""))
          else none) := by
  intro js
  induction js with
  | nil => intro acc _ _; simp [buildValuesGo]
  | cons j js ih =>
      intro acc hfresh hnd
      rw [buildValuesGo]
      by_cases hv : validHdr headers j = true
      · rw [if_pos ((validHdr_cond headers j).mpr hv)]
        have hhdr : (if jsTrim (headers.getD j "") = "" then "Column " ++ toString j
            else jsTrim (headers.getD j "")) = jsTrim (headers.getD j "") := by
          unfold validHdr at hv
          rcases Bool.and_eq_true_iff.mp hv with ⟨h1, _⟩
          rw [decide_eq_true_iff] at h1
          rw [if_neg h1]
        rw [hhdr]
        rw [insertJS_of_fresh _ _ _ (hfresh j (List.mem_cons_self j js) hv)]
        have hfilter : (j :: js).filter (validHdr headers) =
            j :: js.filter (validHdr headers) := by
          rw [List.filter_cons, if_pos hv]
        rw [hfilter, List.map_cons] at hnd
        rcases List.nodup_cons.mp hnd with ⟨hnotin, hnd2⟩
        rw [ih (acc ++ [(jsTrim (headers.getD j ""), jsTrim (rowData.getD j ""))])
          ?_ hnd2]
        · simp only [List.filterMap_cons, hv, ite_true, List.append_assoc,
            List.singleton_append]
        · intro j2 hj2 hv2 p hp
          rcases List.mem_append.mp hp with hp | hp
          · exact hfresh j2 (List.mem_cons_of_mem j hj2) hv2 p hp
          · rcases List.mem_singleton.mp hp with rfl
            intro heq
            apply hnotin
            have heq2 : jsTrim (headers.getD j "") = jsTrim (headers.getD j2 "") := heq
            rw [heq2]
            exact List.mem_map_of_mem _ (List.mem_filter.mpr ⟨hj2, hv2⟩)
      · rw [if_neg (fun hc => hv ((validHdr_cond headers j).mp hc))]
        have hfilter : (j :: js).filter (validHdr headers) = js.filter (validHdr headers) := by
          rw [List.filter_cons, if_neg (by rw [Bool.not_eq_true] at hv; rw [hv]; simp)]
        rw [hfilter] at hnd
        rw [ih acc (fun j2 hj2 => hfresh j2 (List.mem_cons_of_mem j hj2)) hnd]
        rw [Bool.not_eq_true] at hv
        simp only [List.filterMap_cons, hv, Bool.false_eq_true, ite_false]

/-- Claim C8 (amended).  When the valid trimmed headers are pairwise
distinct, a record's `values` binds exactly the columns
`1 ≤ j < min |headers| |rowData|` whose header is non-empty and not the
`Column j` placeholder, each to the trimmed cell text — which is the empty
string when the cell is empty; columns with empty or placeholder headers
(and columns beyond the shorter length) have no entry. -/
theorem buildValues_spec (headers rowData : List String)
    (hnd : ((((List.range (min headers.length rowData.length)).drop 1).filter
        (validHdr headers)).map (fun j => jsTrim (headers.getD j ""))).Nodup) :
    buildValues headers rowData =
      ((List.range (min headers.length rowData.length)).drop 1).filterMap (fun j =>
        if validHdr headers j = true then
          some (jsTrim (headers.getD j ""), jsTrim (rowData.getD j ""))
        else none) := by
  unfold buildValues
  rw [buildValuesGo_spec headers rowData _ []
    (by intro j _ _ p hp; simp at hp) hnd]
  simp

/-- Input rows for the claim C8 counterexample: the row labelled `bar` has
no fragment in the second column. -/
def c8rows : List (List TextItem) :=
  [[⟨"Name", 0, 0, 0, 0⟩, ⟨"Hdr", 100, 0, 0, 0⟩],
   [⟨"foo", 0, 10, 0, 0⟩, ⟨"5", 100, 10, 0, 0⟩],
   [⟨"bar", 0, 20, 0, 0⟩]]

unseal Rat.add Rat.sub Rat.mul Rat.inv in
/-- Claim C8 (counterexample).  In the table built from `c8rows` the row
labelled `bar` has no fragment in the `Hdr` column, yet its `values` binds
`"Hdr"` to the explicit empty string — the claim says empty cells are
absent from `values`. -/
theorem rowsToTable_emptyValue_counterexample :
    (rowsToTable c8rows 0).map (fun t => t.rows.map (fun r => r.values)) =
      some [[("Hdr", "5")], [("Hdr", "")]] ∧
    ((rowsToTable c8rows 0).getD emptyTable).rows.any
      (fun r => r.values.any (fun kv => decide (kv.2 = ""))) = true := by
  decide

/-- Witness for `buildValues_spec`: a present-but-empty cell under the valid
header `A` is stored as an explicit empty string. -/
theorem buildValues_spec_witness :
    buildValues ["L", "A", "B"] ["x", "", "1"] = [("A", ""), ("B", "1")] :=
  (buildValues_spec ["L", "A", "B"] ["x", "", "1"] (by decide)).trans (by decide)

/-! ### The headers invariant -/

theorem insertJS_keys_sub (l : List (String × String)) (k v : String) :
    ∀ p ∈ insertJS l k v, p.1 ∈ l.map Prod.fst ∨ p.1 = k := by
  intro p hp
  unfold insertJS at hp
  by_cases hany : l.any (fun q => q.1 == k) = true
  · rw [if_pos hany] at hp
    rcases List.mem_map.mp hp with ⟨q, hq, hqe⟩
    by_cases hqk : (q.1 == k) = true
    · rw [if_pos hqk] at hqe
      exact Or.inr (by rw [← hqe])
    · rw [if_neg hqk] at hqe
      exact Or.inl (hqe ▸ List.mem_map_of_mem Prod.fst hq)
  · rw [if_neg hany] at hp
    rcases List.mem_append.mp hp with hp | hp
    · exact Or.inl (List.mem_map_of_mem Prod.fst hp)
    · rcases List.mem_singleton.mp hp with rfl
      exact Or.inr rfl

theorem insertJS_keys_mem (l : List (String × String)) (k v q : String) :
    q ∈ (insertJS l k v).map Prod.fst → q ∈ l.map Prod.fst ∨ q = k := by
  intro h
  rcases List.mem_map.mp h with ⟨p, hp, rfl⟩
  exact insertJS_keys_sub l k v p hp

theorem buildValuesGo_keys (headers rowData : List String) :
    ∀ (js : List Nat) (acc : List (String × String)) (p : String × String),
      p ∈ buildValuesGo headers rowData js acc →
      p.1 ∈ acc.map Prod.fst ∨
        ∃ j ∈ js, validHdr headers j = true ∧ p.1 = jsTrim (headers.getD j "") := by
  intro js
  induction js with
  | nil =>
      intro acc p hp
      exact Or.inl (List.mem_map_of_mem Prod.fst hp)
  | cons j js ih =>
      intro acc p hp
      rw [buildValuesGo] at hp
      by_cases hv : validHdr headers j = true
      · rw [if_pos ((validHdr_cond headers j).mpr hv)] at hp
        have hhdr : (if jsTrim (headers.getD j "") = "" then "Column " ++ toString j
            else jsTrim (headers.getD j "")) = jsTrim (headers.getD j "") := by
          unfold validHdr at hv
          rcases Bool.and_eq_true_iff.mp hv with ⟨h1, _⟩
          rw [decide_eq_true_iff] at h1
          rw [if_neg h1]
        rw [hhdr] at hp
        rcases ih _ p hp with hin | ⟨j2, hj2, hv2, he⟩
        · rcases insertJS_keys_mem _ _ _ _ hin with hin | hin
          · exact Or.inl hin
          · exact Or.inr ⟨j, List.mem_cons_self j js, hv, hin⟩
        · exact Or.inr ⟨j2, List.mem_cons_of_mem j hj2, hv2, he⟩
      · rw [if_neg (fun hc => hv ((validHdr_cond headers j).mp hc))] at hp
        rcases ih _ p hp with hin | ⟨j2, hj2, hv2, he⟩
        · exact Or.inl hin
        · exact Or.inr ⟨j2, List.mem_cons_of_mem j hj2, hv2, he⟩

theorem dataRowsGo_values_origin (headers : List String) (ti : Nat) :
    ∀ (mapped : List (List String)) (i : Nat) (rec : TableRow),
      rec ∈ dataRowsGo headers ti i mapped →
      ∃ rd, rec.values = buildValues headers rd := by
  intro mapped
  induction mapped with
  | nil => intro i rec h; simp [dataRowsGo] at h
  | cons rowData rest ih =>
      intro i rec h
      rw [dataRowsGo] at h
      by_cases h1 : jsTrim (rowData.getD 0 "") = "" ∨ (jsTrim (rowData.getD 0 "")).length < 2
      · rw [if_pos h1] at h
        exact ih _ rec h
      · rw [if_neg h1] at h
        by_cases h2 : subHeaderSkip rowData = true
        · rw [if_pos h2] at h
          exact ih _ rec h
        · rw [if_neg h2] at h
          by_cases h3 : (buildValues headers rowData).isEmpty = true
          · rw [if_pos h3] at h
            exact ih _ rec h
          · rw [if_neg h3] at h
            rcases List.mem_cons.mp h with rfl | h
            · exact ⟨rowData, rfl⟩
            · exact ih _ rec h

theorem mem_range_drop (m j : Nat) : j ∈ (List.range m).drop 1 ↔ 1 ≤ j ∧ j < m := by
  cases m with
  | zero => simp
  | succ k =>
      rw [List.range_succ_eq_map, List.drop_succ_cons, List.drop_zero]
      simp only [List.mem_map, List.mem_range]
      constructor
      · rintro ⟨a, ha, rfl⟩
        omega
      · rintro ⟨h1, h2⟩
        exact ⟨j - 1, by omega, by omega⟩

/-- Claim C1.  For every table produced by `rowsToTable`, every key of every
row record's `values` is an element of the table's `headers`, and every
element of `headers` is the non-empty trimmed text of a header-row cell at a
column position of at least 1 — so the label column never contributes a
header. -/
theorem rowsToTable_headers_invariant (rows : List (List TextItem)) (tableIndex : Nat)
    (t : ParsedTable) (ht : rowsToTable rows tableIndex = some t) :
    (∀ rec ∈ t.rows, ∀ kv ∈ rec.values, kv.1 ∈ t.headers) ∧
    (∀ h ∈ t.headers, ∃ j, 1 ≤ j ∧ j < (headerRowOf rows).length ∧
      h = jsTrim ((headerRowOf rows).getD j "") ∧ h ≠ "") := by
  unfold rowsToTable at ht
  by_cases hc1 : rows.length < MIN_TABLE_ROWS
  · rw [if_pos hc1] at ht
    exact absurd ht (by simp)
  rw [if_neg hc1] at ht
  by_cases hc2 : findTypicalColumnCount rows < MIN_COLUMNS
  · rw [if_pos hc2] at ht
    exact absurd ht (by simp)
  rw [if_neg hc2] at ht
  by_cases hc3 : (detectColumnBoundaries rows (findTypicalColumnCount rows)).length <
      MIN_COLUMNS
  · rw [if_pos hc3] at ht
    exact absurd ht (by simp)
  rw [if_neg hc3] at ht
  by_cases hc4 : (dataRowsGo (headerRowOf rows) tableIndex
      (findHeaderRowIndex (mappedRowsOf rows) + 1)
      ((mappedRowsOf rows).drop (findHeaderRowIndex (mappedRowsOf rows) + 1))).isEmpty = true
  · rw [if_pos hc4] at ht
    exact absurd ht (by simp)
  rw [if_neg hc4] at ht
  have ht2 := Option.some.inj ht
  subst ht2
  constructor
  · intro rec hrec kv hkv
    obtain ⟨rd, hval⟩ := dataRowsGo_values_origin (headerRowOf rows) tableIndex _ _ rec hrec
    rw [hval] at hkv
    rcases buildValuesGo_keys (headerRowOf rows) rd _ [] kv hkv with hin | ⟨j, hj, hv, he⟩
    · simp at hin
    · rcases (mem_range_drop _ j).mp hj with ⟨hj1, hjm⟩
      have hjh : j < (headerRowOf rows).length :=
        Nat.lt_of_lt_of_le hjm (Nat.min_le_left _ _)
      have hne : jsTrim ((headerRowOf rows).getD j "") ≠ "" := by
        unfold validHdr at hv
        rcases Bool.and_eq_true_iff.mp hv with ⟨h1, _⟩
        rw [decide_eq_true_iff] at h1
        exact h1
      have hb : j - 1 < ((headerRowOf rows).drop 1).length := by
        rw [List.length_drop]
        omega
      have hgd : ((headerRowOf rows).drop 1)[j - 1] = (headerRowOf rows).getD j "" := by
        rw [List.getElem_drop]
        rw [List.getD_eq_getElem (headerRowOf rows) "" hjh]
        congr 1
        omega
      have hmem : (headerRowOf rows).getD j "" ∈ (headerRowOf rows).drop 1 :=
        hgd ▸ List.getElem_mem hb
      rw [he]
      exact List.mem_filter.mpr
        ⟨List.mem_map_of_mem jsTrim hmem, decide_eq_true hne⟩
  · intro h hh
    rcases List.mem_filter.mp hh with ⟨hmem, hpred⟩
    have hne : h ≠ "" := by
      rw [decide_eq_true_iff] at hpred
      exact hpred
    rcases List.mem_map.mp hmem with ⟨c, hc, hce⟩
    rcases List.mem_iff_getElem.mp hc with ⟨j2, hj2, hcg⟩
    refine ⟨j2 + 1, by omega, ?_, ?_, hne⟩
    · have := hj2
      rw [List.length_drop] at this
      omega
    · have hjh : j2 + 1 < (headerRowOf rows).length := by
        have := hj2
        rw [List.length_drop] at this
        omega
      rw [List.getD_eq_getElem (headerRowOf rows) "" hjh]
      rw [← hce]
      congr 1
      rw [← hcg, List.getElem_drop]
      congr 1
      omega

/-- Input rows for the `rowsToTable_headers_invariant` witness. -/
def c1rows : List (List TextItem) :=
  [[⟨"Name", 0, 0, 0, 0⟩, ⟨"Haa", 100, 0, 0, 0⟩],
   [⟨"foo", 0, 10, 0, 0⟩, ⟨"7", 100, 10, 0, 0⟩]]

unseal Rat.add Rat.sub Rat.mul Rat.inv in
/-- Witness for `rowsToTable_headers_invariant` at `c1rows`: the key `Haa`
of the emitted record is an element of the table's headers. -/
theorem rowsToTable_headers_invariant_witness :
    ("Haa" : String) ∈ ((rowsToTable c1rows 0).getD emptyTable).headers :=
  (rowsToTable_headers_invariant c1rows 0 ((rowsToTable c1rows 0).getD emptyTable)
    (by decide)).1
    (((rowsToTable c1rows 0).getD emptyTable).rows.getD 0 { id := "", label := "", values := [] })
    (by decide) ("Haa", "7") (by decide)
